import Mathlib

/-!
Shallow embedding of the two hash tables of the repository
(`HashTableSeparateChaining` in the file whose name is unknown, and
`HashTableLinearProbing` in `HashTableLinearProbing.cpp`), together with
proofs about the repository's specified properties.

Conventions of the embedding:

* C++ `int` keys and values are modelled as `Int`; bucket counts as `Nat`.
  C++ `%` on `int` is truncated modulo, modelled by `Int.tmod`; C++ `/` on
  `int` is truncated division, modelled by `Int.tdiv`.
* The bucket arrays are modelled as Lean lists of the same length, indexed
  with `List.getD`/`List.set`.  All operations of the source index the
  array with `key % hash_groups`, which for a nonnegative key and a
  positive bucket count is exactly `homeIdx` below; for a negative key the
  C++ index is negative and the vector access is out of bounds (see the
  theorems about `indexOfC`).
* The probing table's unbounded `while` loops (`insert`'s scan, `remove`'s
  scan, and the scans inside `resize`) are modelled with fuel equal to the
  bucket count: one full wrap visits every slot, so the fuel runs out
  exactly when the C++ loop would never terminate; the fuelled function
  returns `none` in that case.  `get`'s loop is bounded in the source
  itself by the start-index check, and fuel `hash_groups` is proved to be
  enough (`lpGetLoop` never hits its fuel-0 case from a valid start).
* The probing table's load-factor test `elements >= hash_groups * 0.75`
  compares an `int` with an exactly representable double; for the `int`
  ranges involved it is exactly `4 * elements ≥ 3 * hash_groups`, which is
  how it is modelled.
-/

set_option maxRecDepth 20000

namespace HashTable

/-- C++ `key % hash_groups` as the source computes it on `int` operands:
truncated modulo (`indexOf` of both tables). -/
def indexOfC (key n : Int) : Int := Int.tmod key n

/-- Modelled from the spec: the normalized non-negative bucket index
`((key % n) + n) % n` that §4.1 of the spec mandates, evaluated with the
host language's truncated `%` as the spec intends it to be written. -/
def specNormIndex (key n : Int) : Int := Int.tmod (Int.tmod key n + n) n

/-- The bucket index actually used to access the array, as a `Nat`.
For `0 ≤ key` and `0 < g` this is exactly the C++ index `key % g`. -/
def homeIdx (key : Int) (g : Nat) : Nat := (Int.tmod key (g : Int)).toNat

/-! ### Separate chaining table (`HashTableSeparateChaining`) -/

/-- State of `HashTableSeparateChaining`: `hash_groups`, `elements`, and
the bucket vector `table`, each bucket a list of (key, value) pairs. -/
structure CHTable where
  hash_groups : Nat
  elements : Int
  table : List (List (Int × Int))
deriving DecidableEq

/-- The freshly constructed chained table with `g` empty buckets. -/
def chEmpty (g : Nat) : CHTable := ⟨g, 0, List.replicate g []⟩

/-- One iteration of the rehash loop in
`HashTableSeparateChaining::resize`: push pair `p` onto bucket
`p.first % (hash_groups * 2)` of the new table. -/
def chRehashStep (g2 : Nat) (nt : List (List (Int × Int))) (p : Int × Int) :
    List (List (Int × Int)) :=
  nt.set (homeIdx p.1 g2) ((nt.getD (homeIdx p.1 g2) []) ++ [p])

/-- `HashTableSeparateChaining::resize`: a no-op unless
`elements / hash_groups ≥ 3` (truncated integer division); otherwise the
bucket count doubles and every pair is pushed onto its new bucket, in
bucket order then chain order. -/
def chResize (s : CHTable) : CHTable :=
  if Int.tdiv s.elements (s.hash_groups : Int) < 3 then s
  else
    { hash_groups := s.hash_groups * 2
      elements := s.elements
      table := s.table.flatten.foldl (chRehashStep (s.hash_groups * 2))
                 (List.replicate (s.hash_groups * 2) []) }

/-- `HashTableSeparateChaining::insert`: append `(key, value)` to bucket
`key % hash_groups` unconditionally, increment `elements`, then run
`resize`. -/
def chInsert (s : CHTable) (key value : Int) : CHTable :=
  let i := homeIdx key s.hash_groups
  chResize { hash_groups := s.hash_groups
             elements := s.elements + 1
             table := s.table.set i ((s.table.getD i []) ++ [(key, value)]) }

/-- `HashTableSeparateChaining::remove`: erase the first pair of bucket
`key % hash_groups` whose key matches and decrement `elements`; a no-op
when no pair matches. -/
def chRemove (s : CHTable) (key : Int) : CHTable :=
  let i := homeIdx key s.hash_groups
  let bkt := s.table.getD i []
  if bkt.any (fun p => p.1 == key) then
    { hash_groups := s.hash_groups
      elements := s.elements - 1
      table := s.table.set i (bkt.eraseP (fun p => p.1 == key)) }
  else s

/-- `HashTableSeparateChaining::get`: the value of the first pair of
bucket `key % hash_groups` whose key matches, `-1` when none does. -/
def chGet (s : CHTable) (key : Int) : Int :=
  match (s.table.getD (homeIdx key s.hash_groups) []).find? (fun p => p.1 == key) with
  | some p => p.2
  | none => -1

/-- Folding `insert` over a list of (key, value) pairs, left to right. -/
def chInsertMany (s : CHTable) (ops : List (Int × Int)) : CHTable :=
  ops.foldl (fun t p => chInsert t p.1 p.2) s

/-! ### Linear probing table (`HashTableLinearProbing`) -/

/-- State of `HashTableLinearProbing`: `hash_groups`, `elements`, and the
slot vector `table`; a slot whose key is `0` is the empty sentinel. -/
structure LPTable where
  hash_groups : Nat
  elements : Int
  table : List (Int × Int)
deriving DecidableEq

/-- The freshly constructed probing table with `g` empty slots. -/
def lpEmpty (g : Nat) : LPTable := ⟨g, 0, List.replicate g (0, 0)⟩

/-- The linear scan `while (¬ P table[index]) index = (index + 1) % g`
shared by the probing table's loops, with fuel: `some` is the first index
(starting at `idx`, wrapping modulo `g`) whose slot satisfies the stop
condition `P`, and `none` means the C++ loop would still be running after
`fuel` probes. -/
def probeFind (t : List (Int × Int)) (g : Nat) (P : Int × Int → Bool) :
    Nat → Nat → Option Nat
  | _, 0 => none
  | idx, fuel + 1 =>
    if P (t.getD idx (0, 0)) then some idx
    else probeFind t g P ((idx + 1) % g) fuel

/-- One iteration of the reinsertion loop of
`HashTableLinearProbing::resize`: place pair `p` in the first slot with
key `0` scanning from `p.first % g2`. -/
def lpPlace (g2 : Nat) (nt : List (Int × Int)) (p : Int × Int) :
    Option (List (Int × Int)) :=
  (probeFind nt g2 (fun q => q.1 == 0) (homeIdx p.1 g2) g2).map (fun i => nt.set i p)

/-- The whole reinsertion loop of `HashTableLinearProbing::resize` over
the old slot vector (empty slots included, as in the source). -/
def lpPlaceAll (g2 : Nat) : List (Int × Int) → List (Int × Int) →
    Option (List (Int × Int))
  | [], nt => some nt
  | p :: rest, nt => (lpPlace g2 nt p).bind (lpPlaceAll g2 rest)

/-- `HashTableLinearProbing::resize`: double `hash_groups`, then reinsert
every pair of the old vector into a fresh all-(0,0) vector by linear
probing at the new modulus. -/
def lpResize (s : LPTable) : Option LPTable :=
  (lpPlaceAll (s.hash_groups * 2) s.table
      (List.replicate (s.hash_groups * 2) (0, 0))).map
    (fun nt => ⟨s.hash_groups * 2, s.elements, nt⟩)

/-- `HashTableLinearProbing::insert`: resize first when
`elements >= hash_groups * 0.75` (exactly `4·elements ≥ 3·hash_groups`);
then scan from `key % hash_groups` while the slot is occupied by another
key; increment `elements` only when the slot found does not already hold
`key`; overwrite the slot with `(key, value)`. -/
def lpInsert (s : LPTable) (key value : Int) : Option LPTable :=
  (if 3 * (s.hash_groups : Int) ≤ 4 * s.elements then lpResize s else some s).bind
    (fun s1 =>
      (probeFind s1.table s1.hash_groups (fun q => q.1 == 0 || q.1 == key)
          (homeIdx key s1.hash_groups) s1.hash_groups).map
        (fun i =>
          ⟨s1.hash_groups,
           s1.elements + (if (s1.table.getD i (0, 0)).1 == key then 0 else 1),
           s1.table.set i (key, value)⟩))

/-- `HashTableLinearProbing::remove`: scan from `key % hash_groups` until
a slot's key equals `key` (the C++ loop never stops otherwise; fuel
`hash_groups` visits every slot, so `none` models divergence), then reset
that slot to `(0, 0)` and decrement `elements`. -/
def lpRemove (s : LPTable) (key : Int) : Option LPTable :=
  (probeFind s.table s.hash_groups (fun q => q.1 == key)
      (homeIdx key s.hash_groups) s.hash_groups).map
    (fun i => ⟨s.hash_groups, s.elements - 1, s.table.set i (0, 0)⟩)

/-- The body of `HashTableLinearProbing::get`: loop while the slot key is
not `0`, returning the value on a key match, advancing with wraparound and
breaking (returning `-1`) when the index returns to `start`.  Fuel
`hash_groups` is enough for the loop to hit its own stopping conditions. -/
def lpGetLoop (t : List (Int × Int)) (g : Nat) (key : Int) (start : Nat) :
    Nat → Nat → Int
  | _, 0 => -1
  | idx, fuel + 1 =>
    if (t.getD idx (0, 0)).1 == 0 then -1
    else if (t.getD idx (0, 0)).1 == key then (t.getD idx (0, 0)).2
    else if (idx + 1) % g == start then -1
    else lpGetLoop t g key start ((idx + 1) % g) fuel

/-- `HashTableLinearProbing::get`. -/
def lpGet (s : LPTable) (key : Int) : Int :=
  lpGetLoop s.table s.hash_groups key (homeIdx key s.hash_groups)
    (homeIdx key s.hash_groups) s.hash_groups

/-- Folding the probing `insert` over a list of (key, value) pairs. -/
def lpInsertMany (s : LPTable) : List (Int × Int) → Option LPTable
  | [] => some s
  | p :: rest => (lpInsert s p.1 p.2).bind (fun s1 => lpInsertMany s1 rest)

/-! ### Specification-level notions -/

/-- Number of occupied slots of the probing table (key field not `0`). -/
def occupied (t : List (Int × Int)) : Nat := t.countP (fun p => p.1 != 0)

/-- Number of slots holding key `k`. -/
def keyCount (t : List (Int × Int)) (k : Int) : Nat :=
  t.countP (fun p => p.1 == k)

/-- Number of slots holding exactly the pair `p`. -/
def pairCount (t : List (Int × Int)) (p : Int × Int) : Nat :=
  t.countP (fun q => q == p)

/-- The probing-table slots holding key `k`, in slot order. -/
def entriesFor (t : List (Int × Int)) (k : Int) : List (Int × Int) :=
  t.filter (fun p => p.1 == k)

/-- The probe invariant of §3 of the spec for one key: scanning forward
from the key's home index, wrapping, some slot within one full loop holds
the key and every slot strictly before it on that scan is occupied. -/
def probeReach (t : List (Int × Int)) (g : Nat) (k : Int) : Prop :=
  ∃ j, j < g ∧ (t.getD ((homeIdx k g + j) % g) (0, 0)).1 = k ∧
    ∀ j2, j2 < j → (t.getD ((homeIdx k g + j2) % g) (0, 0)).1 ≠ 0

/-- The probe invariant of §3 of the spec: every key present in the slot
vector is reachable from its home index before any empty slot. -/
def lpInv (t : List (Int × Int)) (g : Nat) : Prop :=
  ∀ i, i < g → (t.getD i (0, 0)).1 ≠ 0 → probeReach t g (t.getD i (0, 0)).1

instance probeReach.instDecidable (t : List (Int × Int)) (g : Nat) (k : Int) :
    Decidable (probeReach t g k) := by
  unfold probeReach
  infer_instance

instance lpInv.instDecidable (t : List (Int × Int)) (g : Nat) :
    Decidable (lpInv t g) := by
  unfold lpInv
  infer_instance

/-- Well-formedness of a probing-table state: the vector has length
`hash_groups > 0`, no nonzero key occupies two slots, the probe invariant
holds, and `elements` equals the occupied-slot count. -/
def LPWF (s : LPTable) : Prop :=
  s.table.length = s.hash_groups ∧ 0 < s.hash_groups ∧
  (∀ k : Int, k ≠ 0 → keyCount s.table k ≤ 1) ∧
  lpInv s.table s.hash_groups ∧ s.elements = (occupied s.table : Int)

/-- The last value associated to key `k` by an operation list (what the
probing table, which updates in place, should report). -/
def lookupLast (L : List (Int × Int)) (k : Int) : Option Int :=
  ((L.filter (fun p => p.1 == k)).getLast?).map (fun p => p.2)

/-- The first value associated to key `k` by an operation list (what the
chained table, whose `get` returns the first chain match, reports). -/
def lookupFirst (L : List (Int × Int)) (k : Int) : Option Int :=
  (L.find? (fun p => p.1 == k)).map (fun p => p.2)

/-- Relation between a probing-table state and the insert history `L`
that produced it: well-formed, and a nonzero key `k` sits in the table
with value `v` exactly when `v` is the last value inserted for `k`. -/
def LPINV (s : LPTable) (L : List (Int × Int)) : Prop :=
  LPWF s ∧ ∀ k v : Int, k ≠ 0 → ((k, v) ∈ s.table ↔ lookupLast L k = some v)

/-- The chain entries for key `k` that the chained table's `get` and
`remove` can see: the matching pairs of bucket `key % hash_groups`. -/
def keyEntries (s : CHTable) (k : Int) : List (Int × Int) :=
  (s.table.getD (homeIdx k s.hash_groups) []).filter (fun p => p.1 == k)

/-- Every pair of the chained table sits in the bucket selected by its
own key at the current bucket count. -/
def homeProp (t : List (List (Int × Int))) (g : Nat) : Prop :=
  ∀ i, i < g → ∀ p ∈ t.getD i [], homeIdx p.1 g = i

/-- Well-formedness of a chained-table state. -/
def CHWF (s : CHTable) : Prop :=
  s.table.length = s.hash_groups ∧ 0 < s.hash_groups ∧
  homeProp s.table s.hash_groups

/-- Total number of (key, value) pairs stored in the chained table. -/
def numEntriesCH (s : CHTable) : Nat := s.table.flatten.length

/-- The spec's description of the probing `get` result: either the
not-found sentinel `-1`, or the value field of a slot holding the key. -/
def lpGetSpec (s : LPTable) (key : Int) : Prop :=
  lpGet s key = -1 ∨
    ∃ i, i < s.hash_groups ∧ s.table.getD i (0, 0) = (key, lpGet s key)

/-! ### The demonstration scenario (Scenario A/B/C of the spec) -/

/-- Keys 4..20 with values `key * 100`, the Scenario C insertions. -/
def scenarioTail : List (Int × Int) :=
  (List.range 17).map (fun i => ((i : Int) + 4, ((i : Int) + 4) * 100))

/-- Scenario A/B/C on the chained table: 5 buckets, insert 1..3 with
values 100..300, remove 2, insert 4..20 with values `key*100`. -/
def chScenario : CHTable :=
  chInsertMany (chRemove (chInsertMany (chEmpty 5) [(1, 100), (2, 200), (3, 300)]) 2)
    scenarioTail

/-- Scenario A/B/C on the probing table. -/
def lpScenario : Option LPTable :=
  (lpInsertMany (lpEmpty 5) [(1, 100), (2, 200), (3, 300)]).bind
    (fun s => (lpRemove s 2).bind (fun s1 => lpInsertMany s1 scenarioTail))

end HashTable

namespace HashTable

/-! ### Helper lemmas: bucket-index arithmetic -/

theorem homeIdx_lt (k : Int) {g : Nat} (hg : 0 < g) : homeIdx k g < g := by
  have h := Int.tmod_lt_of_pos k (show (0 : Int) < (g : Int) by exact_mod_cast hg)
  unfold homeIdx
  omega

theorem homeIdx_cast {k : Int} (g : Nat) (hk : 0 ≤ k) :
    (homeIdx k g : Int) = Int.tmod k (g : Int) := by
  unfold homeIdx
  exact Int.toNat_of_nonneg (Int.tmod_nonneg _ hk)

theorem pos_step (g start j : Nat) :
    ((start + j) % g + 1) % g = (start + (j + 1)) % g := by
  rw [Nat.mod_add_mod, Nat.add_assoc]

theorem pos_eq_start_iff {g start : Nat} (hs : start < g) (j : Nat) :
    (start + j) % g = start ↔ j % g = 0 := by
  constructor
  · intro h
    have hmod : start + j ≡ start + 0 [MOD g] := by
      unfold Nat.ModEq
      simpa [Nat.mod_eq_of_lt hs] using h
    have := Nat.ModEq.add_left_cancel' start hmod
    simpa [Nat.ModEq] using this
  · intro h
    obtain ⟨c, rfl⟩ := Nat.dvd_of_mod_eq_zero h
    rw [Nat.add_mul_mod_self_left]
    exact Nat.mod_eq_of_lt hs

theorem pos_inj {g start i j : Nat} (hi : i < g) (hj : j < g)
    (h : (start + i) % g = (start + j) % g) : i = j := by
  have hmod : start + i ≡ start + j [MOD g] := h
  have := Nat.ModEq.add_left_cancel' start hmod
  have hij : i % g = j % g := this
  rwa [Nat.mod_eq_of_lt hi, Nat.mod_eq_of_lt hj] at hij

theorem pos_surj {g start : Nat} (hs : start < g) {m : Nat} (hm : m < g) :
    ∃ j, j < g ∧ (start + j) % g = m := by
  by_cases hle : start ≤ m
  · refine ⟨m - start, by omega, ?_⟩
    have : start + (m - start) = m := by omega
    rw [this]
    exact Nat.mod_eq_of_lt hm
  · refine ⟨g + m - start, by omega, ?_⟩
    have : start + (g + m - start) = g + m := by omega
    rw [this, Nat.add_mod_left]
    exact Nat.mod_eq_of_lt hm

/-! ### Helper lemmas: lists -/

theorem getD_eq_getElem {α : Type} {l : List α} {i : Nat} (d : α)
    (h : i < l.length) : l.getD i d = l[i] := by
  simp [List.getD_eq_getElem?_getD, List.getElem?_eq_getElem h]

theorem getD_eq_default {α : Type} {l : List α} {i : Nat} (d : α)
    (h : l.length ≤ i) : l.getD i d = d := by
  simp [List.getD_eq_getElem?_getD, List.getElem?_eq_none h]

theorem getD_set_self {α : Type} {l : List α} {i : Nat} (a d : α)
    (h : i < l.length) : (l.set i a).getD i d = a := by
  simp [List.getD_eq_getElem?_getD, List.getElem?_set_self h]

theorem getD_set_ne {α : Type} {l : List α} {i j : Nat} (a d : α)
    (h : i ≠ j) : (l.set i a).getD j d = l.getD j d := by
  simp [List.getD_eq_getElem?_getD, List.getElem?_set_ne h]

theorem getD_replicate {α : Type} {n i : Nat} (a d : α) (h : i < n) :
    (List.replicate n a).getD i d = a := by
  simp [List.getD_eq_getElem?_getD, List.getElem?_replicate_of_lt h]

theorem getD_mem {α : Type} {l : List α} {i : Nat} (d : α)
    (h : i < l.length) : l.getD i d ∈ l := by
  rw [getD_eq_getElem d h]
  exact List.getElem_mem h

theorem exists_getD_of_mem {α : Type} {l : List α} {a : α} (h : a ∈ l)
    (d : α) : ∃ i, i < l.length ∧ l.getD i d = a := by
  obtain ⟨n, hn, rfl⟩ := List.mem_iff_getElem.mp h
  exact ⟨n, hn, getD_eq_getElem d hn⟩

theorem countP_set {α : Type} {l : List α} {i : Nat} (a d : α)
    (p : α → Bool) (h : i < l.length) :
    (l.set i a).countP p + (if p (l.getD i d) then 1 else 0) =
      l.countP p + (if p a then 1 else 0) := by
  induction l generalizing i with
  | nil => simp at h
  | cons x xs ih =>
    cases i with
    | zero =>
      simp only [List.set_cons_zero, List.countP_cons, List.getD_cons_zero]
      omega
    | succ n =>
      have hlen : n < xs.length := by simpa using h
      have ihn := ih hlen
      simp only [List.set_cons_succ, List.countP_cons, List.getD_cons_succ]
      omega

theorem two_le_countP {α : Type} {l : List α} {p : α → Bool} (d : α)
    (i j : Nat) (hij : i ≠ j) (hi : i < l.length) (hj : j < l.length)
    (hpi : p (l.getD i d) = true) (hpj : p (l.getD j d) = true) :
    2 ≤ l.countP p := by
  induction l generalizing i j with
  | nil => simp at hi
  | cons x xs ih =>
    rw [List.countP_cons]
    cases i with
    | zero =>
      cases j with
      | zero => omega
      | succ m =>
        simp only [List.getD_cons_zero] at hpi
        simp only [List.getD_cons_succ] at hpj
        have h1 : 0 < xs.countP p :=
          List.countP_pos_iff.mpr ⟨xs.getD m d, getD_mem d (by simpa using hj), hpj⟩
        have h2 : (if p x then 1 else 0) = 1 := by simp [hpi]
        omega
    | succ n =>
      cases j with
      | zero =>
        simp only [List.getD_cons_zero] at hpj
        simp only [List.getD_cons_succ] at hpi
        have h1 : 0 < xs.countP p :=
          List.countP_pos_iff.mpr ⟨xs.getD n d, getD_mem d (by simpa using hi), hpi⟩
        have h2 : (if p x then 1 else 0) = 1 := by simp [hpj]
        omega
      | succ m =>
        simp only [List.getD_cons_succ] at hpi hpj
        have := ih n m (by omega) (by simpa using hi)
          (by simpa using hj) hpi hpj
        omega

theorem countP_le_one_eq {α : Type} {l : List α} {p : α → Bool} {i j : Nat}
    (d : α) (h1 : l.countP p ≤ 1) (hi : i < l.length) (hj : j < l.length)
    (hpi : p (l.getD i d) = true) (hpj : p (l.getD j d) = true) : i = j := by
  by_contra hij
  exact absurd h1 (by have := two_le_countP d i j hij hi hj hpi hpj; omega)

/-! ### Helper lemmas: the probe scan -/

theorem probeFind_none_iff {t : List (Int × Int)} {g : Nat} {P : Int × Int → Bool}
    (fuel : Nat) : ∀ idx, idx < g →
    (probeFind t g P idx fuel = none ↔
      ∀ j, j < fuel → P (t.getD ((idx + j) % g) (0, 0)) = false) := by
  induction fuel with
  | zero => intro idx hidx; simp [probeFind]
  | succ fuel ih =>
    intro idx hidx
    have hg : 0 < g := by omega
    simp only [probeFind]
    by_cases hP : P (t.getD idx (0, 0)) = true
    · rw [if_pos hP]
      constructor
      · intro h; exact absurd h (by simp)
      · intro h
        have h0 := h 0 (by omega)
        rw [Nat.add_zero, Nat.mod_eq_of_lt hidx] at h0
        rw [h0] at hP
        exact absurd hP (by simp)
    · have hPf : P (t.getD idx (0, 0)) = false := by simpa using hP
      rw [if_neg hP, ih ((idx + 1) % g) (Nat.mod_lt _ hg)]
      constructor
      · intro h j hj
        cases j with
        | zero => rw [Nat.add_zero, Nat.mod_eq_of_lt hidx]; exact hPf
        | succ j2 =>
          have hstep := h j2 (by omega)
          rw [Nat.mod_add_mod] at hstep
          have e : idx + 1 + j2 = idx + (j2 + 1) := by omega
          rw [e] at hstep
          exact hstep
      · intro h j2 hj2
        have hstep := h (j2 + 1) (by omega)
        rw [Nat.mod_add_mod]
        have e : idx + 1 + j2 = idx + (j2 + 1) := by omega
        rw [e]
        exact hstep

theorem probeFind_some {t : List (Int × Int)} {g : Nat} {P : Int × Int → Bool}
    (fuel : Nat) : ∀ idx i, idx < g → probeFind t g P idx fuel = some i →
    ∃ j, j < fuel ∧ i = (idx + j) % g ∧ P (t.getD i (0, 0)) = true ∧
      ∀ j2, j2 < j → P (t.getD ((idx + j2) % g) (0, 0)) = false := by
  induction fuel with
  | zero => intro idx i hidx h; simp [probeFind] at h
  | succ fuel ih =>
    intro idx i hidx h
    have hg : 0 < g := by omega
    simp only [probeFind] at h
    by_cases hP : P (t.getD idx (0, 0)) = true
    · rw [if_pos hP] at h
      have hii : idx = i := by injection h
      subst hii
      refine ⟨0, by omega, by rw [Nat.add_zero, Nat.mod_eq_of_lt hidx], hP, ?_⟩
      intro j2 hj2
      omega
    · have hPf : P (t.getD idx (0, 0)) = false := by simpa using hP
      rw [if_neg hP] at h
      obtain ⟨j, hj, hji, hPi, hpath⟩ := ih ((idx + 1) % g) i (Nat.mod_lt _ hg) h
      refine ⟨j + 1, by omega, ?_, hPi, ?_⟩
      · rw [hji, Nat.mod_add_mod]
        have e : idx + 1 + j = idx + (j + 1) := by omega
        rw [e]
      · intro j2 hj2
        cases j2 with
        | zero => rw [Nat.add_zero, Nat.mod_eq_of_lt hidx]; exact hPf
        | succ j3 =>
          have hstep := hpath j3 (by omega)
          rw [Nat.mod_add_mod] at hstep
          have e : idx + 1 + j3 = idx + (j3 + 1) := by omega
          rw [e] at hstep
          exact hstep

theorem probeFind_some_of_exists {t : List (Int × Int)} {g : Nat}
    {P : Int × Int → Bool} {idx : Nat} (hidx : idx < g)
    (hex : ∃ m, m < g ∧ P (t.getD m (0, 0)) = true) :
    ∃ i, probeFind t g P idx g = some i := by
  obtain ⟨m, hm, hPm⟩ := hex
  cases hcase : probeFind t g P idx g with
  | some i => exact ⟨i, rfl⟩
  | none =>
    obtain ⟨j, hj, hjm⟩ := pos_surj hidx hm
    have hnone := (probeFind_none_iff g idx hidx).mp hcase j hj
    rw [hjm] at hnone
    rw [hnone] at hPm
    exact absurd hPm (by simp)

/-- Writing `(k, v)` into the slot that the probe scan for key `k` found
(a slot that was empty or already held `k`, with every slot strictly
before it on the scan occupied) preserves the probe invariant. -/
theorem lpInv_set_place {t : List (Int × Int)} {g : Nat} {k v : Int}
    {i j : Nat} (hlen : t.length = g) (hg : 0 < g) (hinv : lpInv t g)
    (hij : i = (homeIdx k g + j) % g) (hjg : j < g)
    (hpath : ∀ j2, j2 < j → (t.getD ((homeIdx k g + j2) % g) (0, 0)).1 ≠ 0)
    (hstop : (t.getD i (0, 0)).1 = 0 ∨ (t.getD i (0, 0)).1 = k) :
    lpInv (t.set i (k, v)) g := by
  have hi : i < g := by rw [hij]; exact Nat.mod_lt _ hg
  have hilen : i < t.length := by omega
  intro m hm hkey
  by_cases hmi : m = i
  · rw [hmi] at hkey ⊢
    rw [getD_set_self (k, v) (0, 0) hilen] at hkey ⊢
    refine ⟨j, hjg, ?_, ?_⟩
    · rw [← hij, getD_set_self (k, v) (0, 0) hilen]
    · intro j2 hj2
      have hne : i ≠ (homeIdx k g + j2) % g := by
        rw [hij]
        intro hc
        have := pos_inj hjg (by omega) hc
        omega
      rw [getD_set_ne (k, v) (0, 0) hne]
      exact hpath j2 hj2
  · have hgetm : (t.set i (k, v)).getD m (0, 0) = t.getD m (0, 0) :=
      getD_set_ne (k, v) (0, 0) (fun hc => hmi hc.symm)
    rw [hgetm] at hkey ⊢
    obtain ⟨jw, hjw, hkeyw, hpathw⟩ := hinv m hm hkey
    refine ⟨jw, hjw, ?_, ?_⟩
    · by_cases hwi : (homeIdx (t.getD m (0, 0)).1 g + jw) % g = i
      · rw [hwi] at hkeyw ⊢
        have hkk : (t.getD m (0, 0)).1 = k := by
          rcases hstop with h0 | hk
          · rw [h0] at hkeyw; exact absurd hkeyw.symm hkey
          · rw [hk] at hkeyw; exact hkeyw.symm
        rw [getD_set_self (k, v) (0, 0) hilen, hkk]
      · rw [getD_set_ne (k, v) (0, 0) (fun hc => hwi hc.symm)]
        exact hkeyw
    · intro j2 hj2
      by_cases hwi : (homeIdx (t.getD m (0, 0)).1 g + j2) % g = i
      · rw [hwi, getD_set_self (k, v) (0, 0) hilen]
        by_cases hk0 : k = 0
        · exfalso
          have hold2 := hpathw j2 hj2
          rw [hwi] at hold2
          rcases hstop with h0 | hkk
          · exact hold2 h0
          · rw [hk0] at hkk
            exact hold2 hkk
        · simpa using hk0
      · rw [getD_set_ne (k, v) (0, 0) (fun hc => hwi hc.symm)]
        exact hpathw j2 hj2

/-! ### Helper lemmas: the probing resize -/

theorem lpPlace_spec {g2 : Nat} {nt nt' : List (Int × Int)} {p : Int × Int}
    (hg2 : 0 < g2) (hlen : nt.length = g2) (hinv : lpInv nt g2)
    (h : lpPlace g2 nt p = some nt') :
    nt'.length = g2 ∧ lpInv nt' g2 ∧
    (∀ q : Int × Int, q.1 ≠ 0 →
      pairCount nt' q = pairCount nt q + (if p = q then 1 else 0)) ∧
    (∀ k : Int, k ≠ 0 →
      keyCount nt' k = keyCount nt k + (if p.1 = k then 1 else 0)) ∧
    occupied nt' = occupied nt + (if p.1 = 0 then 0 else 1) := by
  obtain ⟨i, hfind, rfl⟩ := Option.map_eq_some'.mp h
  have hhome : homeIdx p.1 g2 < g2 := homeIdx_lt p.1 hg2
  obtain ⟨j, hj, hji, hPi, hpath⟩ := probeFind_some g2 _ i hhome hfind
  have hslot : (nt.getD i (0, 0)).1 = 0 := by simpa using hPi
  have hilen : i < nt.length := by
    rw [hlen, hji]; exact Nat.mod_lt _ hg2
  have hpath0 : ∀ j2, j2 < j →
      (nt.getD ((homeIdx p.1 g2 + j2) % g2) (0, 0)).1 ≠ 0 := by
    intro j2 hj2
    have := hpath j2 hj2
    simpa using this
  refine ⟨by simp [hlen], ?_, ?_, ?_, ?_⟩
  · have := @lpInv_set_place nt g2 p.1 p.2 i j hlen hg2 hinv hji hj hpath0
      (Or.inl hslot)
    simpa using this
  · intro q hq
    have hc := countP_set p (0, 0) (fun r => r == q) hilen
    beta_reduce at hc
    have hne : ((nt.getD i (0, 0) == q)) = false := by
      have : nt.getD i (0, 0) ≠ q := by
        intro hc2
        rw [hc2] at hslot
        exact hq hslot
      simpa using this
    rw [hne] at hc
    unfold pairCount
    by_cases hpq : p = q
    · rw [if_pos hpq]
      have : (p == q) = true := by simpa using hpq
      rw [this] at hc
      norm_num at hc
      omega
    · rw [if_neg hpq]
      have : (p == q) = false := by simpa using hpq
      rw [this] at hc
      norm_num at hc
      omega
  · intro k hk
    have hc := countP_set p (0, 0) (fun r => r.1 == k) hilen
    beta_reduce at hc
    have hne : ((nt.getD i (0, 0)).1 == k) = false := by
      rw [hslot]
      simpa using (Ne.symm hk)
    rw [hne] at hc
    unfold keyCount
    by_cases hpk : p.1 = k
    · rw [if_pos hpk]
      have : (p.1 == k) = true := by simpa using hpk
      rw [this] at hc
      norm_num at hc
      omega
    · rw [if_neg hpk]
      have : (p.1 == k) = false := by simpa using hpk
      rw [this] at hc
      norm_num at hc
      omega
  · have hc := countP_set p (0, 0) (fun r => r.1 != 0) hilen
    beta_reduce at hc
    have hne : ((nt.getD i (0, 0)).1 != 0) = false := by
      rw [hslot]
      simp
    rw [hne] at hc
    unfold occupied
    by_cases hp0 : p.1 = 0
    · rw [if_pos hp0]
      have : (p.1 != 0) = false := by simp [hp0]
      rw [this] at hc
      norm_num at hc
      omega
    · rw [if_neg hp0]
      have : (p.1 != 0) = true := by simpa using hp0
      rw [this] at hc
      norm_num at hc
      omega

theorem lpPlaceAll_spec {g2 : Nat} (hg2 : 0 < g2) :
    ∀ (old nt nt' : List (Int × Int)),
      lpPlaceAll g2 old nt = some nt' → nt.length = g2 → lpInv nt g2 →
      nt'.length = g2 ∧ lpInv nt' g2 ∧
      (∀ q : Int × Int, q.1 ≠ 0 →
        pairCount nt' q = pairCount nt q + pairCount old q) ∧
      (∀ k : Int, k ≠ 0 → keyCount nt' k = keyCount nt k + keyCount old k) ∧
      occupied nt' = occupied nt + occupied old := by
  intro old
  induction old with
  | nil =>
    intro nt nt' h hlen hinv
    have : nt = nt' := by simpa [lpPlaceAll] using h
    subst this
    simp [pairCount, keyCount, occupied]
    exact ⟨hlen, hinv⟩
  | cons p rest ih =>
    intro nt nt' h hlen hinv
    simp only [lpPlaceAll] at h
    obtain ⟨ntm, hm, hrest⟩ := Option.bind_eq_some.mp h
    obtain ⟨hlen1, hinv1, hpc1, hkc1, hoc1⟩ := lpPlace_spec hg2 hlen hinv hm
    obtain ⟨hlen2, hinv2, hpc2, hkc2, hoc2⟩ := ih ntm nt' hrest hlen1 hinv1
    refine ⟨hlen2, hinv2, ?_, ?_, ?_⟩
    · intro q hq
      rw [hpc2 q hq, hpc1 q hq]
      unfold pairCount
      rw [List.countP_cons]
      by_cases hpq : p = q
      · have : (p == q) = true := by simpa using hpq
        rw [this, if_pos hpq]
        norm_num
        try omega
      · have : (p == q) = false := by simpa using hpq
        rw [this, if_neg hpq]
        norm_num
        try omega
    · intro k hk
      rw [hkc2 k hk, hkc1 k hk]
      unfold keyCount
      rw [List.countP_cons]
      by_cases hpk : p.1 = k
      · have : (p.1 == k) = true := by simpa using hpk
        rw [this, if_pos hpk]
        norm_num
        try omega
      · have : (p.1 == k) = false := by simpa using hpk
        rw [this, if_neg hpk]
        norm_num
        try omega
    · rw [hoc2, hoc1]
      unfold occupied
      rw [List.countP_cons]
      by_cases hp0 : p.1 = 0
      · have : (p.1 != 0) = false := by simp [hp0]
        rw [this, if_pos hp0]
        norm_num
        try omega
      · have : (p.1 != 0) = true := by simpa using hp0
        rw [this, if_neg hp0]
        norm_num
        try omega

theorem lpPlaceAll_total {g2 : Nat} (hg2 : 0 < g2) :
    ∀ (old nt : List (Int × Int)), nt.length = g2 → lpInv nt g2 →
      occupied nt + occupied old < g2 →
      ∃ nt', lpPlaceAll g2 old nt = some nt' := by
  intro old
  induction old with
  | nil => intro nt _ _ _; exact ⟨nt, rfl⟩
  | cons p rest ih =>
    intro nt hlen hinv hocc
    have hocc_cons : occupied (p :: rest) =
        occupied rest + (if p.1 = 0 then 0 else 1) := by
      unfold occupied
      rw [List.countP_cons]
      by_cases hp0 : p.1 = 0
      · have : (p.1 != 0) = false := by simp [hp0]
        rw [this, if_pos hp0]
        norm_num
      · have : (p.1 != 0) = true := by simpa using hp0
        rw [this, if_neg hp0]
        norm_num
    have hoc : occupied nt < g2 := by
      rw [hocc_cons] at hocc
      by_cases hp0 : p.1 = 0 <;> simp [hp0] at hocc <;> omega
    have hex : ∃ m, m < g2 ∧ ((nt.getD m (0, 0)).1 == 0) = true := by
      have hlt : nt.countP (fun p => p.1 != 0) < nt.length := by
        rw [hlen]; exact hoc
      have hnall : ¬ ∀ a ∈ nt, (fun p : Int × Int => p.1 != 0) a = true := by
        intro hall
        rw [List.countP_eq_length.mpr hall] at hlt
        omega
      push_neg at hnall
      obtain ⟨a, ha, hna⟩ := hnall
      have ha0 : a.1 = 0 := by simpa using hna
      obtain ⟨m, hmlen, hma⟩ := exists_getD_of_mem ha (0, 0)
      refine ⟨m, by omega, ?_⟩
      rw [hma, ha0]
      simp
    obtain ⟨i, hi⟩ := @probeFind_some_of_exists nt g2 (fun q => q.1 == 0)
      (homeIdx p.1 g2) (homeIdx_lt p.1 hg2) hex
    have hplace : lpPlace g2 nt p = some (nt.set i p) := by
      unfold lpPlace
      rw [hi]
      rfl
    obtain ⟨hlen1, hinv1, _, _, hoc1⟩ := lpPlace_spec hg2 hlen hinv hplace
    obtain ⟨nt', hnt'⟩ := ih (nt.set i p) hlen1 hinv1 (by
      rw [hoc1]
      rw [hocc_cons] at hocc
      omega)
    refine ⟨nt', ?_⟩
    simp only [lpPlaceAll]
    rw [hplace]
    simpa using hnt'

theorem lpInv_replicate (g2 : Nat) : lpInv (List.replicate g2 (0, 0)) g2 := by
  intro i hi hkey
  rw [getD_replicate (0, 0) (0, 0) hi] at hkey
  exact absurd rfl hkey

theorem lpResize_spec {s s' : LPTable} (hlen : s.table.length = s.hash_groups)
    (hg : 0 < s.hash_groups) (h : lpResize s = some s') :
    s'.hash_groups = s.hash_groups * 2 ∧ s'.elements = s.elements ∧
    s'.table.length = s'.hash_groups ∧ lpInv s'.table s'.hash_groups ∧
    (∀ q : Int × Int, q.1 ≠ 0 → pairCount s'.table q = pairCount s.table q) ∧
    (∀ k : Int, k ≠ 0 → keyCount s'.table k = keyCount s.table k) ∧
    occupied s'.table = occupied s.table := by
  obtain ⟨nt, hfind, rfl⟩ := Option.map_eq_some'.mp h
  have hg2 : 0 < s.hash_groups * 2 := by omega
  have hrep : (List.replicate (s.hash_groups * 2) ((0 : Int), (0 : Int))).length =
      s.hash_groups * 2 := by simp
  obtain ⟨hlen2, hinv2, hpc2, hkc2, hoc2⟩ :=
    lpPlaceAll_spec hg2 s.table _ nt hfind hrep (lpInv_replicate _)
  have hrep_pc : ∀ q : Int × Int, q.1 ≠ 0 →
      pairCount (List.replicate (s.hash_groups * 2) ((0 : Int), (0 : Int))) q = 0 := by
    intro q hq
    unfold pairCount
    rw [List.countP_eq_zero]
    intro a ha
    rw [List.mem_replicate] at ha
    rw [ha.2]
    have hne0 : ((0 : Int), (0 : Int)) ≠ q := by
      intro hc
      rw [← hc] at hq
      exact hq rfl
    simpa using hne0
  have hrep_kc : ∀ k : Int, k ≠ 0 →
      keyCount (List.replicate (s.hash_groups * 2) ((0 : Int), (0 : Int))) k = 0 := by
    intro k hk
    unfold keyCount
    rw [List.countP_eq_zero]
    intro a ha
    rw [List.mem_replicate] at ha
    rw [ha.2]
    simpa using Ne.symm hk
  have hrep_oc : occupied (List.replicate (s.hash_groups * 2) ((0 : Int), (0 : Int))) = 0 := by
    unfold occupied
    rw [List.countP_eq_zero]
    intro a ha
    rw [List.mem_replicate] at ha
    rw [ha.2]
    simp
  refine ⟨rfl, rfl, hlen2, hinv2, ?_, ?_, ?_⟩
  · intro q hq
    rw [hpc2 q hq, hrep_pc q hq]
    omega
  · intro k hk
    rw [hkc2 k hk, hrep_kc k hk]
    omega
  · rw [hoc2, hrep_oc]
    omega

theorem lpResize_total {s : LPTable} (hlen : s.table.length = s.hash_groups)
    (hg : 0 < s.hash_groups) : ∃ s', lpResize s = some s' := by
  have hg2 : 0 < s.hash_groups * 2 := by omega
  have hrep_oc : occupied (List.replicate (s.hash_groups * 2) ((0 : Int), (0 : Int))) = 0 := by
    unfold occupied
    rw [List.countP_eq_zero]
    intro a ha
    rw [List.mem_replicate] at ha
    rw [ha.2]
    simp
  have hocc : occupied s.table ≤ s.hash_groups := by
    have hcl : List.countP (fun p : Int × Int => p.1 != 0) s.table ≤ s.table.length :=
      List.countP_le_length (fun p : Int × Int => p.1 != 0)
    unfold occupied
    omega
  obtain ⟨nt, hnt⟩ := lpPlaceAll_total hg2 s.table _ (by simp) (lpInv_replicate _)
    (by rw [hrep_oc]; omega)
  refine ⟨⟨s.hash_groups * 2, s.elements, nt⟩, ?_⟩
  unfold lpResize
  rw [hnt]
  rfl

/-! ### Helper lemmas: the probing get loop -/

theorem lpGetLoop_fuel {t : List (Int × Int)} {g : Nat} {key : Int}
    {start : Nat} (hs : start < g) :
    ∀ fuel1 fuel2 d, d < g → g ≤ d + fuel1 → g ≤ d + fuel2 →
      lpGetLoop t g key start ((start + d) % g) fuel1 =
        lpGetLoop t g key start ((start + d) % g) fuel2 := by
  intro fuel1
  induction fuel1 with
  | zero => intro fuel2 d hd h1 h2; omega
  | succ f1 ih =>
    intro fuel2 d hd h1 h2
    cases fuel2 with
    | zero => omega
    | succ f2 =>
      simp only [lpGetLoop]
      rw [pos_step]
      by_cases h0 : ((t.getD ((start + d) % g) (0, 0)).1 == 0) = true
      · rw [if_pos h0, if_pos h0]
      · rw [if_neg h0, if_neg h0]
        by_cases hk : ((t.getD ((start + d) % g) (0, 0)).1 == key) = true
        · rw [if_pos hk, if_pos hk]
        · rw [if_neg hk, if_neg hk]
          by_cases hbr : ((start + (d + 1)) % g == start) = true
          · rw [if_pos hbr, if_pos hbr]
          · rw [if_neg hbr, if_neg hbr]
            have hd1 : d + 1 < g := by
              rcases Nat.lt_or_ge (d + 1) g with h | h
              · exact h
              · exfalso
                have hd1g : d + 1 = g := by omega
                apply hbr
                have : (start + (d + 1)) % g = start := by
                  rw [hd1g, Nat.add_comm start g, Nat.add_mod_left]
                  exact Nat.mod_eq_of_lt hs
                simpa using this
            exact ih f2 (d + 1) hd1 (by omega) (by omega)

theorem lpGetLoop_reaches {t : List (Int × Int)} {g : Nat} {key : Int}
    {start : Nat} (hs : start < g) (hkey0 : key ≠ 0) {j : Nat} (hj : j < g)
    (hkeyj : (t.getD ((start + j) % g) (0, 0)).1 = key)
    (hpath : ∀ j2, j2 < j → (t.getD ((start + j2) % g) (0, 0)).1 ≠ 0 ∧
      (t.getD ((start + j2) % g) (0, 0)).1 ≠ key) :
    ∀ fuel d, g ≤ d + fuel → d ≤ j →
      lpGetLoop t g key start ((start + d) % g) fuel =
        (t.getD ((start + j) % g) (0, 0)).2 := by
  intro fuel
  induction fuel with
  | zero => intro d h1 h2; omega
  | succ f ih =>
    intro d h1 h2
    by_cases hdj : d = j
    · subst hdj
      simp only [lpGetLoop]
      have h0 : ((t.getD ((start + d) % g) (0, 0)).1 == 0) = false := by
        rw [hkeyj]
        simpa using hkey0
      have hk : ((t.getD ((start + d) % g) (0, 0)).1 == key) = true := by
        rw [hkeyj]
        simp
      rw [h0, hk]
      simp
    · have hd : d < j := by omega
      obtain ⟨hne0, hnek⟩ := hpath d hd
      simp only [lpGetLoop]
      rw [pos_step]
      have h0 : ((t.getD ((start + d) % g) (0, 0)).1 == 0) = false := by
        simpa using hne0
      have hk : ((t.getD ((start + d) % g) (0, 0)).1 == key) = false := by
        simpa using hnek
      have hbr : ((start + (d + 1)) % g == start) = false := by
        have : (start + (d + 1)) % g ≠ start := by
          intro hc
          rw [pos_eq_start_iff hs] at hc
          rw [Nat.mod_eq_of_lt (by omega)] at hc
          omega
        simpa using this
      rw [h0, hk, hbr]
      simp only [Bool.false_eq_true, if_false]
      exact ih (d + 1) (by omega) (by omega)

theorem lpGetLoop_misses {t : List (Int × Int)} {g : Nat} {key : Int}
    {start : Nat} (hs : start < g) {j : Nat} (hj : j < g)
    (hempty : (t.getD ((start + j) % g) (0, 0)).1 = 0)
    (hpath : ∀ j2, j2 < j → (t.getD ((start + j2) % g) (0, 0)).1 ≠ 0 ∧
      (t.getD ((start + j2) % g) (0, 0)).1 ≠ key) :
    ∀ fuel d, g ≤ d + fuel → d ≤ j →
      lpGetLoop t g key start ((start + d) % g) fuel = -1 := by
  intro fuel
  induction fuel with
  | zero => intro d h1 h2; omega
  | succ f ih =>
    intro d h1 h2
    by_cases hdj : d = j
    · subst hdj
      simp only [lpGetLoop]
      have h0 : ((t.getD ((start + d) % g) (0, 0)).1 == 0) = true := by
        rw [hempty]
        simp
      rw [h0]
      simp
    · have hd : d < j := by omega
      obtain ⟨hne0, hnek⟩ := hpath d hd
      simp only [lpGetLoop]
      rw [pos_step]
      have h0 : ((t.getD ((start + d) % g) (0, 0)).1 == 0) = false := by
        simpa using hne0
      have hk : ((t.getD ((start + d) % g) (0, 0)).1 == key) = false := by
        simpa using hnek
      have hbr : ((start + (d + 1)) % g == start) = false := by
        have : (start + (d + 1)) % g ≠ start := by
          intro hc
          rw [pos_eq_start_iff hs] at hc
          rw [Nat.mod_eq_of_lt (by omega)] at hc
          omega
        simpa using this
      rw [h0, hk, hbr]
      simp only [Bool.false_eq_true, if_false]
      exact ih (d + 1) (by omega) (by omega)

theorem lpGetLoop_result {t : List (Int × Int)} {g : Nat} {key : Int}
    {start : Nat} (hlen : t.length = g) :
    ∀ fuel idx, lpGetLoop t g key start idx fuel = -1 ∨
      ∃ i, i < g ∧ t.getD i (0, 0) = (key, lpGetLoop t g key start idx fuel) := by
  intro fuel
  induction fuel with
  | zero => intro idx; left; rfl
  | succ f ih =>
    intro idx
    simp only [lpGetLoop]
    by_cases h0 : ((t.getD idx (0, 0)).1 == 0) = true
    · rw [if_pos h0]
      left
      rfl
    · rw [if_neg h0]
      by_cases hk : ((t.getD idx (0, 0)).1 == key) = true
      · rw [if_pos hk]
        right
        have hne0 : (t.getD idx (0, 0)).1 ≠ 0 := by simpa using h0
        have hidx : idx < t.length := by
          by_contra hc
          rw [getD_eq_default (0, 0) (by omega)] at hne0
          exact hne0 rfl
        refine ⟨idx, by omega, ?_⟩
        have hkeq : (t.getD idx (0, 0)).1 = key := by simpa using hk
        exact Prod.ext hkeq rfl
      · rw [if_neg hk]
        by_cases hbr : ((idx + 1) % g == start) = true
        · rw [if_pos hbr]
          left
          rfl
        · rw [if_neg hbr]
          exact ih ((idx + 1) % g)

theorem lpGetLoop_key_zero {t : List (Int × Int)} {g : Nat} {start : Nat} :
    ∀ fuel idx, lpGetLoop t g 0 start idx fuel = -1 := by
  intro fuel
  induction fuel with
  | zero => intro idx; rfl
  | succ f ih =>
    intro idx
    simp only [lpGetLoop]
    by_cases h0 : ((t.getD idx (0, 0)).1 == 0) = true
    · rw [if_pos h0]
    · rw [if_neg h0, if_neg h0]
      by_cases hbr : ((idx + 1) % g == start) = true
      · rw [if_pos hbr]
      · rw [if_neg hbr]
        exact ih ((idx + 1) % g)

/-- The probing `get` on a well-placed unique key returns its value. -/
theorem lpGet_found {s : LPTable} {k v : Int} (hlen : s.table.length = s.hash_groups)
    (hg : 0 < s.hash_groups) (hk : k ≠ 0) (hmem : (k, v) ∈ s.table)
    (huniq : keyCount s.table k ≤ 1)
    (hreach : probeReach s.table s.hash_groups k) : lpGet s k = v := by
  obtain ⟨j, hj, hkeyj, hpath⟩ := hreach
  have huniq2 : List.countP (fun p : Int × Int => p.1 == k) s.table ≤ 1 := huniq
  have hs : homeIdx k s.hash_groups < s.hash_groups := homeIdx_lt k hg
  obtain ⟨m, hmlen, hmd⟩ := exists_getD_of_mem hmem (0, 0)
  have hjpos : (homeIdx k s.hash_groups + j) % s.hash_groups < s.hash_groups :=
    Nat.mod_lt _ hg
  have hmj : m = (homeIdx k s.hash_groups + j) % s.hash_groups := by
    apply countP_le_one_eq ((0 : Int), (0 : Int)) huniq2 hmlen
      (by omega)
    · rw [hmd]; simp
    · rw [hkeyj]; simp
  have hval : (s.table.getD ((homeIdx k s.hash_groups + j) % s.hash_groups) (0, 0)).2 = v := by
    rw [← hmj, hmd]
  have hpath2 : ∀ j2, j2 < j →
      (s.table.getD ((homeIdx k s.hash_groups + j2) % s.hash_groups) (0, 0)).1 ≠ 0 ∧
      (s.table.getD ((homeIdx k s.hash_groups + j2) % s.hash_groups) (0, 0)).1 ≠ k := by
    intro j2 hj2
    refine ⟨hpath j2 hj2, ?_⟩
    intro hc
    have hlt2 : (homeIdx k s.hash_groups + j2) % s.hash_groups < s.hash_groups :=
      Nat.mod_lt _ hg
    have heq := @countP_le_one_eq (Int × Int) s.table (fun p => p.1 == k)
      ((homeIdx k s.hash_groups + j2) % s.hash_groups)
      ((homeIdx k s.hash_groups + j) % s.hash_groups)
      ((0 : Int), (0 : Int)) huniq2 (by omega) (by omega)
      (by beta_reduce; rw [hc]; simp) (by beta_reduce; rw [hkeyj]; simp)
    have := pos_inj (by omega : j2 < s.hash_groups) hj heq
    omega
  have := lpGetLoop_reaches hs hk hj hkeyj hpath2 s.hash_groups 0 (by omega) (by omega)
  rw [Nat.add_zero, Nat.mod_eq_of_lt hs] at this
  unfold lpGet
  rw [this, hval]

/-! ### Helper lemmas: the probing insert -/

theorem mem_iff_pairCount {t : List (Int × Int)} {q : Int × Int} :
    q ∈ t ↔ 0 < pairCount t q := by
  unfold pairCount
  rw [List.countP_pos_iff]
  constructor
  · intro h; exact ⟨q, h, by simp⟩
  · rintro ⟨a, ha, hq⟩
    have : a = q := by simpa using hq
    rwa [this] at ha

theorem pairCount_le_keyCount {t : List (Int × Int)} {k v : Int} :
    pairCount t (k, v) ≤ keyCount t k := by
  unfold pairCount keyCount
  apply List.countP_mono_left
  intro a _ ha
  have : a = (k, v) := by simpa using ha
  rw [this]
  simp

theorem pairCount_add_le {t : List (Int × Int)} {k v1 v2 : Int}
    (hv : v1 ≠ v2) : pairCount t (k, v1) + pairCount t (k, v2) ≤ keyCount t k := by
  induction t with
  | nil => simp [pairCount, keyCount]
  | cons a rest ih =>
    unfold pairCount keyCount at *
    rw [List.countP_cons, List.countP_cons, List.countP_cons]
    by_cases h1 : a = (k, v1)
    · have e1 : (a == (k, v1)) = true := by simpa using h1
      have e2 : (a == (k, v2)) = false := by
        simp only [beq_eq_false_iff_ne]
        rw [h1]
        intro hc
        exact hv (by injection hc)
      have e3 : (a.1 == k) = true := by rw [h1]; simp
      rw [e1, e2, e3]
      simp only [if_true, if_false]
      norm_num
      omega
    · by_cases h2 : a = (k, v2)
      · have e1 : (a == (k, v1)) = false := by
          simp only [beq_eq_false_iff_ne]
          rw [h2]
          intro hc
          have hvv : v2 = v1 := by injection hc
          exact hv hvv.symm
        have e2 : (a == (k, v2)) = true := by simpa using h2
        have e3 : (a.1 == k) = true := by rw [h2]; simp
        rw [e1, e2, e3]
        norm_num
        omega
      · have e1 : (a == (k, v1)) = false := by simpa using h1
        have e2 : (a == (k, v2)) = false := by simpa using h2
        rw [e1, e2]
        norm_num
        by_cases e3 : a.1 = k
        · rw [if_pos e3]; omega
        · rw [if_neg e3]; omega

theorem keyCount_eq_zero_iff {t : List (Int × Int)} {k : Int} :
    keyCount t k = 0 ↔ ∀ v : Int, (k, v) ∉ t := by
  unfold keyCount
  rw [List.countP_eq_zero]
  constructor
  · intro h v hv
    have := h (k, v) hv
    simp at this
  · intro h a ha hak
    have hak2 : a.1 = k := by simpa using hak
    have : a = (k, a.2) := by
      exact Prod.ext hak2 rfl
    rw [this] at ha
    exact h a.2 ha

theorem lpInsert_cases {s s' : LPTable} {k v : Int}
    (h : lpInsert s k v = some s') :
    ∃ s1 i,
      ((3 * (s.hash_groups : Int) ≤ 4 * s.elements ∧ lpResize s = some s1) ∨
        (¬ 3 * (s.hash_groups : Int) ≤ 4 * s.elements ∧ s1 = s)) ∧
      probeFind s1.table s1.hash_groups (fun q => q.1 == 0 || q.1 == k)
        (homeIdx k s1.hash_groups) s1.hash_groups = some i ∧
      s' = ⟨s1.hash_groups,
        s1.elements + (if (s1.table.getD i (0, 0)).1 == k then 0 else 1),
        s1.table.set i (k, v)⟩ := by
  unfold lpInsert at h
  by_cases hcond : 3 * (s.hash_groups : Int) ≤ 4 * s.elements
  · rw [if_pos hcond] at h
    obtain ⟨s1, hres, hmap⟩ := Option.bind_eq_some.mp h
    obtain ⟨i, hfind, heq⟩ := Option.map_eq_some'.mp hmap
    exact ⟨s1, i, Or.inl ⟨hcond, hres⟩, hfind, heq.symm⟩
  · rw [if_neg hcond] at h
    rw [Option.some_bind] at h
    obtain ⟨i, hfind, heq⟩ := Option.map_eq_some'.mp h
    exact ⟨s, i, Or.inr ⟨hcond, rfl⟩, hfind, heq.symm⟩

theorem lpInsert_lpInv {s s' : LPTable} {k v : Int}
    (hlen : s.table.length = s.hash_groups) (hg : 0 < s.hash_groups)
    (hinv : lpInv s.table s.hash_groups) (h : lpInsert s k v = some s') :
    s'.table.length = s'.hash_groups ∧ 0 < s'.hash_groups ∧
    lpInv s'.table s'.hash_groups := by
  obtain ⟨s1, i, hbranch, hfind, heq⟩ := lpInsert_cases h
  have hs1 : s1.table.length = s1.hash_groups ∧ 0 < s1.hash_groups ∧
      lpInv s1.table s1.hash_groups := by
    rcases hbranch with ⟨hcond, hres⟩ | ⟨hcond, rfl⟩
    · obtain ⟨hg2, _, hlen2, hinv2, _⟩ := lpResize_spec hlen hg hres
      exact ⟨hlen2, by omega, hinv2⟩
    · exact ⟨hlen, hg, hinv⟩
  obtain ⟨hlen1, hg1, hinv1⟩ := hs1
  obtain ⟨j, hj, hji, hPi, hpath⟩ :=
    probeFind_some s1.hash_groups _ i (homeIdx_lt k hg1) hfind
  have hstop : (s1.table.getD i (0, 0)).1 = 0 ∨ (s1.table.getD i (0, 0)).1 = k := by
    simpa using hPi
  have hpath0 : ∀ j2, j2 < j →
      (s1.table.getD ((homeIdx k s1.hash_groups + j2) % s1.hash_groups) (0, 0)).1 ≠ 0 := by
    intro j2 hj2
    have hp := hpath j2 hj2
    simp only [Bool.or_eq_false_iff, beq_eq_false_iff_ne] at hp
    exact hp.1
  subst heq
  refine ⟨by simpa using hlen1, hg1, ?_⟩
  exact @lpInv_set_place s1.table s1.hash_groups k v i j hlen1 hg1 hinv1 hji hj
    hpath0 hstop

theorem lpInsert_size {s s' : LPTable} {k v : Int}
    (hlen : s.table.length = s.hash_groups) (hg : 0 < s.hash_groups)
    (hsz : s.elements = (occupied s.table : Int)) (h : lpInsert s k v = some s') :
    s'.elements = (occupied s'.table : Int) ∧
    s'.table.length = s'.hash_groups ∧ 0 < s'.hash_groups ∧
    occupied s'.table ≤ occupied s.table + 1 ∧
    (s'.hash_groups = s.hash_groups ∧ 4 * s.elements < 3 * (s.hash_groups : Int) ∨
      s'.hash_groups = s.hash_groups * 2) := by
  obtain ⟨s1, i, hbranch, hfind, heq⟩ := lpInsert_cases h
  have hs1 : s1.table.length = s1.hash_groups ∧ 0 < s1.hash_groups ∧
      s1.elements = (occupied s1.table : Int) ∧
      occupied s1.table = occupied s.table ∧ s1.elements = s.elements ∧
      (s1.hash_groups = s.hash_groups ∧ 4 * s.elements < 3 * (s.hash_groups : Int) ∨
        s1.hash_groups = s.hash_groups * 2) := by
    rcases hbranch with ⟨hcond, hres⟩ | ⟨hcond, rfl⟩
    · obtain ⟨hg2, he2, hlen2, _, _, _, hoc2⟩ := lpResize_spec hlen hg hres
      refine ⟨hlen2, by omega, ?_, hoc2, he2, Or.inr hg2⟩
      rw [he2, hoc2]
      exact hsz
    · exact ⟨hlen, hg, hsz, rfl, rfl, Or.inl ⟨rfl, by omega⟩⟩
  obtain ⟨hlen1, hg1, hsz1, hocc1, hel1, hbr1⟩ := hs1
  obtain ⟨j, hj, hji, hPi, _⟩ :=
    probeFind_some s1.hash_groups _ i (homeIdx_lt k hg1) hfind
  have hi_lt : i < s1.table.length := by
    rw [hlen1, hji]
    exact Nat.mod_lt _ hg1
  have hc := countP_set (k, v) (0, 0) (fun r => r.1 != 0) hi_lt
  beta_reduce at hc
  have epr : ((k, v).1 != 0) = (k != 0) := rfl
  rw [epr] at hc
  subst heq
  by_cases hsk : ((s1.table.getD i (0, 0)).1 == k) = true
  · have hkeq : (s1.table.getD i (0, 0)).1 = k := by simpa using hsk
    have hocc_eq : occupied (s1.table.set i (k, v)) = occupied s1.table := by
      unfold occupied
      rw [hkeq] at hc
      omega
    refine ⟨?_, by simpa using hlen1, hg1, by rw [hocc_eq]; omega, ?_⟩
    · show s1.elements + (if ((s1.table.getD i (0, 0)).1 == k) = true then 0 else 1) =
        (occupied (s1.table.set i (k, v)) : Int)
      rw [if_pos hsk, hocc_eq]
      rw [hsz1]
      norm_num
    · show s1.hash_groups = s.hash_groups ∧ _ ∨ s1.hash_groups = s.hash_groups * 2
      exact hbr1
  · have hstop : (s1.table.getD i (0, 0)).1 = 0 ∨ (s1.table.getD i (0, 0)).1 = k := by
      simpa using hPi
    have h0 : (s1.table.getD i (0, 0)).1 = 0 := by
      rcases hstop with h0 | hkk
      · exact h0
      · exact absurd (by rw [hkk]; simp : ((s1.table.getD i (0, 0)).1 == k) = true) hsk
    have hk0 : k ≠ 0 := by
      intro hc2
      rw [hc2] at hsk
      rw [h0] at hsk
      simp at hsk
    have hocc_eq : occupied (s1.table.set i (k, v)) = occupied s1.table + 1 := by
      unfold occupied
      rw [h0] at hc
      have hkne : (k != 0) = true := by simpa using hk0
      rw [hkne] at hc
      simp only [bne_self_eq_false] at hc
      norm_num at hc
      omega
    refine ⟨?_, by simpa using hlen1, hg1, by rw [hocc_eq]; omega, ?_⟩
    · show s1.elements + (if ((s1.table.getD i (0, 0)).1 == k) = true then 0 else 1) =
        (occupied (s1.table.set i (k, v)) : Int)
      rw [if_neg hsk, hocc_eq]
      rw [hsz1]
      push_cast
      ring
    · show s1.hash_groups = s.hash_groups ∧ _ ∨ s1.hash_groups = s.hash_groups * 2
      exact hbr1

theorem lpInsert_bound {s s' : LPTable} {k v : Int}
    (hlen : s.table.length = s.hash_groups) (hg4 : 4 ≤ s.hash_groups)
    (hsz : s.elements = (occupied s.table : Int))
    (hocc : occupied s.table < s.hash_groups) (h : lpInsert s k v = some s') :
    s'.table.length = s'.hash_groups ∧ 4 ≤ s'.hash_groups ∧
    s'.elements = (occupied s'.table : Int) ∧
    occupied s'.table < s'.hash_groups := by
  have hg : 0 < s.hash_groups := by omega
  obtain ⟨hsz', hlen', hg', hocc', hbr⟩ := lpInsert_size hlen hg hsz h
  rcases hbr with ⟨hgeq, hlt⟩ | hgeq
  · refine ⟨hlen', by omega, hsz', ?_⟩
    rw [hgeq]
    rw [hsz] at hlt
    have : (4 : Int) * (occupied s.table : Int) < 3 * (s.hash_groups : Int) := hlt
    have h4 : 4 * occupied s.table < 3 * s.hash_groups := by exact_mod_cast this
    omega
  · refine ⟨hlen', by omega, hsz', ?_⟩
    rw [hgeq]
    omega

theorem keyCount_pos_index {t : List (Int × Int)} {k : Int}
    (h : 0 < keyCount t k) : ∃ m, m < t.length ∧ (t.getD m (0, 0)).1 = k := by
  unfold keyCount at h
  obtain ⟨a, ha, hak⟩ := List.countP_pos_iff.mp h
  obtain ⟨m, hm, hma⟩ := exists_getD_of_mem ha (0, 0)
  exact ⟨m, hm, by rw [hma]; simpa using hak⟩

theorem mem_set_iff {t : List (Int × Int)} {i : Nat} {a q : Int × Int}
    (hi : i < t.length) :
    q ∈ t.set i a ↔ (q = a ∨ ∃ m, m < t.length ∧ m ≠ i ∧ t.getD m (0, 0) = q) := by
  constructor
  · intro h
    obtain ⟨m, hm, hmq⟩ := exists_getD_of_mem h (0, 0)
    rw [List.length_set] at hm
    by_cases hmi : m = i
    · subst hmi
      rw [getD_set_self a (0, 0) (by omega)] at hmq
      exact Or.inl hmq.symm
    · right
      refine ⟨m, by omega, hmi, ?_⟩
      rw [getD_set_ne a (0, 0) (fun hc => hmi hc.symm)] at hmq
      exact hmq
  · intro h
    rcases h with rfl | ⟨m, hm, hmi, hmq⟩
    · have hgd : (t.set i q).getD i (0, 0) = q := getD_set_self q (0, 0) hi
      have hlen2 : i < (t.set i q).length := by rw [List.length_set]; omega
      have hmem := getD_mem (0, 0) hlen2
      rwa [hgd] at hmem
    · have hset : (t.set i a).getD m (0, 0) = t.getD m (0, 0) :=
        getD_set_ne a (0, 0) (fun hc => hmi hc.symm)
      have hm2 : m < (t.set i a).length := by rw [List.length_set]; omega
      rw [← hmq, ← hset]
      exact getD_mem (0, 0) hm2

/-- When the probing scan of `insert` stops and the key is present (and
unique, with the probe invariant holding), it stops exactly on the key's
slot. -/
theorem probeFind_stop_key {t : List (Int × Int)} {g : Nat} {k : Int}
    {i j : Nat} (hg : 0 < g) (hlen : t.length = g) (hk : k ≠ 0)
    (huniq : keyCount t k ≤ 1) (hpos : 0 < keyCount t k)
    (hji : i = (homeIdx k g + j) % g) (hjg : j < g)
    (hPi : ((t.getD i (0, 0)).1 == 0 || (t.getD i (0, 0)).1 == k) = true)
    (hpath : ∀ j2, j2 < j →
      ((t.getD ((homeIdx k g + j2) % g) (0, 0)).1 == 0 ||
        (t.getD ((homeIdx k g + j2) % g) (0, 0)).1 == k) = false)
    (hinv : lpInv t g) : (t.getD i (0, 0)).1 = k := by
  obtain ⟨m, hm, hmk⟩ := keyCount_pos_index hpos
  have hreach := hinv m (by omega) (by rw [hmk]; exact hk)
  rw [hmk] at hreach
  obtain ⟨jr, hjr, hkr, hpr⟩ := hreach
  have hjle : j ≤ jr := by
    by_contra hlt
    push_neg at hlt
    have hfail := hpath jr hlt
    rw [hkr] at hfail
    simp at hfail
  rcases Nat.eq_or_lt_of_le hjle with heq2 | hlt
  · rw [hji, heq2]
    exact hkr
  · exfalso
    have hne0 := hpr j hlt
    have hstop : (t.getD i (0, 0)).1 = 0 ∨ (t.getD i (0, 0)).1 = k := by
      simpa using hPi
    have hkj : (t.getD i (0, 0)).1 = k := by
      rcases hstop with h0 | hkk
      · rw [hji] at h0
        exact absurd h0 hne0
      · exact hkk
    have hposne : i ≠ (homeIdx k g + jr) % g := by
      rw [hji]
      intro hc
      have := pos_inj hjg hjr hc
      omega
    have hilt : i < g := by rw [hji]; exact Nat.mod_lt _ hg
    have h2 : 2 ≤ List.countP (fun p : Int × Int => p.1 == k) t :=
      @two_le_countP (Int × Int) t (fun p => p.1 == k) ((0 : Int), (0 : Int)) i
        ((homeIdx k g + jr) % g) hposne (by omega)
        (by have := Nat.mod_lt (homeIdx k g + jr) hg; omega)
        (by beta_reduce; rw [hkj]; simp) (by beta_reduce; rw [hkr]; simp)
    unfold keyCount at huniq
    omega

theorem lpInsert_mem {s s' : LPTable} {k v : Int}
    (hlen : s.table.length = s.hash_groups) (hg : 0 < s.hash_groups)
    (huniq : ∀ k0 : Int, k0 ≠ 0 → keyCount s.table k0 ≤ 1)
    (hinv : lpInv s.table s.hash_groups) (hk : k ≠ 0)
    (h : lpInsert s k v = some s') :
    (∀ k0 : Int, k0 ≠ 0 → keyCount s'.table k0 ≤ 1) ∧
    (∀ k0 v0 : Int, k0 ≠ 0 →
      ((k0, v0) ∈ s'.table ↔ if k0 = k then v0 = v else (k0, v0) ∈ s.table)) ∧
    s'.elements = s.elements + (if keyCount s.table k = 0 then 1 else 0) := by
  obtain ⟨s1, i, hbranch, hfind, heq⟩ := lpInsert_cases h
  have hs1 : s1.table.length = s1.hash_groups ∧ 0 < s1.hash_groups ∧
      (∀ k0 : Int, k0 ≠ 0 → keyCount s1.table k0 = keyCount s.table k0) ∧
      (∀ q : Int × Int, q.1 ≠ 0 → pairCount s1.table q = pairCount s.table q) ∧
      lpInv s1.table s1.hash_groups ∧ s1.elements = s.elements := by
    rcases hbranch with ⟨hcond, hres⟩ | ⟨hcond, rfl⟩
    · obtain ⟨hg2, he2, hlen2, hinv2, hpc2, hkc2, _⟩ := lpResize_spec hlen hg hres
      exact ⟨hlen2, by omega, hkc2, hpc2, hinv2, he2⟩
    · exact ⟨hlen, hg, fun _ _ => rfl, fun _ _ => rfl, hinv, rfl⟩
  obtain ⟨hlen1, hg1, hkc1, hpc1, hinv1, hel1⟩ := hs1
  have huniq1 : ∀ k0 : Int, k0 ≠ 0 → keyCount s1.table k0 ≤ 1 := by
    intro k0 hk0
    rw [hkc1 k0 hk0]
    exact huniq k0 hk0
  have hmem1 : ∀ k0 v0 : Int, k0 ≠ 0 → ((k0, v0) ∈ s1.table ↔ (k0, v0) ∈ s.table) := by
    intro k0 v0 hk0
    rw [mem_iff_pairCount, mem_iff_pairCount, hpc1 (k0, v0) hk0]
  obtain ⟨j, hj, hji, hPi, hpath⟩ :=
    probeFind_some s1.hash_groups _ i (homeIdx_lt k hg1) hfind
  have hi_lt : i < s1.table.length := by
    rw [hlen1, hji]
    exact Nat.mod_lt _ hg1
  subst heq
  by_cases hsk : ((s1.table.getD i (0, 0)).1 == k) = true
  · -- the scan stopped on a slot already holding `k`: update in place
    have hkeq : (s1.table.getD i (0, 0)).1 = k := by simpa using hsk
    have hkpos : 0 < keyCount s1.table k := by
      unfold keyCount
      apply List.countP_pos_iff.mpr
      exact ⟨s1.table.getD i (0, 0), getD_mem (0, 0) hi_lt, by rw [hkeq]; simp⟩
    have hknz : ¬ keyCount s.table k = 0 := by
      rw [← hkc1 k hk]
      omega
    refine ⟨?_, ?_, ?_⟩
    · intro k0 hk0
      show keyCount (s1.table.set i (k, v)) k0 ≤ 1
      have hc := countP_set (k, v) (0, 0) (fun r => r.1 == k0) hi_lt
      beta_reduce at hc
      rw [hkeq] at hc
      have e : ((k, v).1 == k0) = (k == k0) := rfl
      rw [e] at hc
      have : List.countP (fun r => r.1 == k0) (s1.table.set i (k, v)) =
          List.countP (fun r => r.1 == k0) s1.table := by omega
      unfold keyCount
      rw [this]
      exact huniq1 k0 hk0
    · intro k0 v0 hk0
      show (k0, v0) ∈ s1.table.set i (k, v) ↔ _
      rw [mem_set_iff hi_lt]
      by_cases hkk : k0 = k
      · subst hkk
        rw [if_pos rfl]
        constructor
        · rintro (hc | ⟨m, hm, hmi, hmq⟩)
          · injection hc
          · exfalso
            have hmk0 : (s1.table.getD m (0, 0)).1 = k0 := by rw [hmq]
            have h2 : 2 ≤ List.countP (fun p : Int × Int => p.1 == k0) s1.table :=
              @two_le_countP (Int × Int) s1.table (fun p => p.1 == k0)
                ((0 : Int), (0 : Int)) m i hmi hm hi_lt
                (by beta_reduce; rw [hmk0]; simp)
                (by beta_reduce; rw [hkeq]; simp)
            have := huniq1 k0 hk0
            unfold keyCount at this
            omega
        · intro hv0
          subst hv0
          exact Or.inl rfl
      · rw [if_neg hkk]
        rw [← hmem1 k0 v0 hk0]
        constructor
        · rintro (hc | ⟨m, hm, hmi, hmq⟩)
          · exfalso
            apply hkk
            injection hc
          · rw [← hmq]
            exact getD_mem (0, 0) hm
        · intro hmem
          obtain ⟨m, hm, hmq⟩ := exists_getD_of_mem hmem (0, 0)
          right
          refine ⟨m, hm, ?_, hmq⟩
          intro hc
          subst hc
          rw [hmq] at hkeq
          exact hkk hkeq
    · show s1.elements + (if ((s1.table.getD i (0, 0)).1 == k) = true then 0 else 1) =
        s.elements + (if keyCount s.table k = 0 then 1 else 0)
      rw [if_pos hsk, if_neg hknz, hel1]
  · -- the scan stopped on an empty slot: new entry
    have hstop : (s1.table.getD i (0, 0)).1 = 0 ∨ (s1.table.getD i (0, 0)).1 = k := by
      simpa using hPi
    have h0 : (s1.table.getD i (0, 0)).1 = 0 := by
      rcases hstop with h0 | hkk
      · exact h0
      · exact absurd (by rw [hkk]; simp : ((s1.table.getD i (0, 0)).1 == k) = true) hsk
    have hkzero : keyCount s1.table k = 0 := by
      by_contra hc
      have hpos : 0 < keyCount s1.table k := by omega
      have := probeFind_stop_key hg1 hlen1 hk (huniq1 k hk) hpos hji hj hPi hpath hinv1
      rw [this] at h0
      exact hk h0
    have hkz : keyCount s.table k = 0 := by rw [← hkc1 k hk]; exact hkzero
    refine ⟨?_, ?_, ?_⟩
    · intro k0 hk0
      show keyCount (s1.table.set i (k, v)) k0 ≤ 1
      have hc := countP_set (k, v) (0, 0) (fun r => r.1 == k0) hi_lt
      beta_reduce at hc
      rw [h0] at hc
      have e : ((k, v).1 == k0) = (k == k0) := rfl
      rw [e] at hc
      have e2 : ((0 : Int) == k0) = false := by simpa using Ne.symm hk0
      rw [e2] at hc
      by_cases hkk : k = k0
      · have e3 : (k == k0) = true := by simpa using hkk
        rw [e3] at hc
        norm_num at hc
        have hcnt : List.countP (fun r : Int × Int => r.1 == k0) s1.table = 0 := by
          have := hkzero
          unfold keyCount at this
          rw [hkk] at this
          exact this
        unfold keyCount
        omega
      · have e3 : (k == k0) = false := by simpa using hkk
        rw [e3] at hc
        norm_num at hc
        have := huniq1 k0 hk0
        unfold keyCount at this ⊢
        omega
    · intro k0 v0 hk0
      show (k0, v0) ∈ s1.table.set i (k, v) ↔ _
      rw [mem_set_iff hi_lt]
      by_cases hkk : k0 = k
      · subst hkk
        rw [if_pos rfl]
        constructor
        · rintro (hc | ⟨m, hm, hmi, hmq⟩)
          · injection hc
          · exfalso
            have : (k0, v0) ∈ s1.table := by
              rw [← hmq]
              exact getD_mem (0, 0) hm
            exact keyCount_eq_zero_iff.mp hkzero v0 this
        · intro hv0
          subst hv0
          exact Or.inl rfl
      · rw [if_neg hkk]
        rw [← hmem1 k0 v0 hk0]
        constructor
        · rintro (hc | ⟨m, hm, hmi, hmq⟩)
          · exfalso
            apply hkk
            injection hc
          · rw [← hmq]
            exact getD_mem (0, 0) hm
        · intro hmem
          obtain ⟨m, hm, hmq⟩ := exists_getD_of_mem hmem (0, 0)
          right
          refine ⟨m, hm, ?_, hmq⟩
          intro hc
          subst hc
          rw [hmq] at h0
          exact hk0 h0
    · show s1.elements + (if ((s1.table.getD i (0, 0)).1 == k) = true then 0 else 1) =
        s.elements + (if keyCount s.table k = 0 then 1 else 0)
      rw [if_neg hsk, if_pos hkz, hel1]

/-! ### Helper lemmas: probing-table state invariants through histories -/

theorem exists_empty_slot {t : List (Int × Int)} (h : occupied t < t.length) :
    ∃ m, m < t.length ∧ (t.getD m (0, 0)).1 = 0 := by
  have hnall : ¬ ∀ a ∈ t, (fun p : Int × Int => p.1 != 0) a = true := by
    intro hall
    unfold occupied at h
    rw [List.countP_eq_length.mpr hall] at h
    omega
  push_neg at hnall
  obtain ⟨a, ha, hna⟩ := hnall
  have ha0 : a.1 = 0 := by simpa using hna
  obtain ⟨m, hm, hma⟩ := exists_getD_of_mem ha (0, 0)
  exact ⟨m, hm, by rw [hma]; exact ha0⟩

theorem LPWF_lpEmpty (g : Nat) (hg : 0 < g) : LPWF (lpEmpty g) := by
  refine ⟨by simp [lpEmpty], hg, ?_, lpInv_replicate g, ?_⟩
  · intro k hk
    unfold keyCount lpEmpty
    have : List.countP (fun p : Int × Int => p.1 == k) (List.replicate g (0, 0)) = 0 := by
      rw [List.countP_eq_zero]
      intro a ha
      rw [List.mem_replicate] at ha
      rw [ha.2]
      simpa using Ne.symm hk
    simp only [this]
    omega
  · show (0 : Int) = (occupied (List.replicate g (0, 0)) : Int)
    have : occupied (List.replicate g ((0 : Int), (0 : Int))) = 0 := by
      unfold occupied
      rw [List.countP_eq_zero]
      intro a ha
      rw [List.mem_replicate] at ha
      rw [ha.2]
      simp
    rw [this]
    simp

theorem lookupLast_append (L : List (Int × Int)) (k v k0 : Int) :
    lookupLast (L ++ [(k, v)]) k0 = if k0 = k then some v else lookupLast L k0 := by
  unfold lookupLast
  rw [List.filter_append]
  by_cases hkk : k0 = k
  · subst hkk
    have hf : List.filter (fun p : Int × Int => p.1 == k0) [(k0, v)] = [(k0, v)] := by
      simp
    rw [hf, List.getLast?_concat]
    simp
  · have hf : List.filter (fun p : Int × Int => p.1 == k0) [(k, v)] = [] := by
      rw [List.filter_eq_nil_iff]
      intro a ha
      rw [List.mem_singleton] at ha
      rw [ha]
      simp
      exact fun hc => hkk hc.symm
    rw [hf, List.append_nil, if_neg hkk]

theorem LPINV_lpEmpty (g : Nat) (hg : 0 < g) : LPINV (lpEmpty g) [] := by
  refine ⟨LPWF_lpEmpty g hg, ?_⟩
  intro k v hk
  constructor
  · intro hmem
    exfalso
    unfold lpEmpty at hmem
    rw [List.mem_replicate] at hmem
    have : k = 0 := by
      have := hmem.2
      injection this
    exact hk this
  · intro hl
    exfalso
    unfold lookupLast at hl
    simp at hl

theorem LPINV_insert {s s' : LPTable} {L : List (Int × Int)} {k v : Int}
    (hk : 0 < k) (hinv : LPINV s L) (h : lpInsert s k v = some s') :
    LPINV s' (L ++ [(k, v)]) := by
  obtain ⟨⟨hlen, hg, huniq, hpinv, hsz⟩, hcontent⟩ := hinv
  have hkne : k ≠ 0 := by omega
  obtain ⟨huniq2, hmem2, _⟩ := lpInsert_mem hlen hg huniq hpinv hkne h
  obtain ⟨hsz2, hlen2, hg2, _, _⟩ := lpInsert_size hlen hg hsz h
  obtain ⟨_, _, hpinv2⟩ := lpInsert_lpInv hlen hg hpinv h
  refine ⟨⟨hlen2, hg2, huniq2, hpinv2, hsz2⟩, ?_⟩
  intro k0 v0 hk0
  rw [hmem2 k0 v0 hk0, lookupLast_append]
  by_cases hkk : k0 = k
  · rw [if_pos hkk, if_pos hkk]
    constructor
    · intro hv
      rw [hv]
    · intro hv
      injection hv with hv2
      exact hv2.symm
  · rw [if_neg hkk, if_neg hkk]
    exact hcontent k0 v0 hk0

theorem lpInsertMany_LPINV :
    ∀ (ops : List (Int × Int)) (s s' : LPTable) (L : List (Int × Int)),
      LPINV s L → (∀ p ∈ ops, 0 < p.1) → lpInsertMany s ops = some s' →
      LPINV s' (L ++ ops) := by
  intro ops
  induction ops with
  | nil =>
    intro s s' L hinv _ h
    have : s = s' := by simpa [lpInsertMany] using h
    subst this
    simpa using hinv
  | cons p rest ih =>
    intro s s' L hinv hpos h
    simp only [lpInsertMany] at h
    obtain ⟨s1, h1, h2⟩ := Option.bind_eq_some.mp h
    have hp : 0 < p.1 := hpos p (by simp)
    have hinv1 := LPINV_insert hp hinv h1
    have hinv1b : LPINV s1 (L ++ [p]) := by
      have hpe : (p.1, p.2) = p := rfl
      rwa [hpe] at hinv1
    have := ih s1 s' (L ++ [p]) hinv1b (fun q hq => hpos q (by simp [hq])) h2
    rwa [List.append_assoc] at this

theorem LPINV_get {s : LPTable} {L : List (Int × Int)} {k v : Int}
    (hinv : LPINV s L) (hk : k ≠ 0) (hlast : lookupLast L k = some v) :
    lpGet s k = v := by
  obtain ⟨⟨hlen, hg, huniq, hpinv, _⟩, hcontent⟩ := hinv
  have hmem : (k, v) ∈ s.table := (hcontent k v hk).mpr hlast
  obtain ⟨m, hm, hmq⟩ := exists_getD_of_mem hmem (0, 0)
  have hreach := hpinv m (by omega) (by rw [hmq]; exact hk)
  rw [hmq] at hreach
  exact lpGet_found hlen hg hk hmem (huniq k hk) hreach

theorem lpInsertMany_bound :
    ∀ (ops : List (Int × Int)) (s s' : LPTable),
      s.table.length = s.hash_groups → 4 ≤ s.hash_groups →
      s.elements = (occupied s.table : Int) → occupied s.table < s.hash_groups →
      lpInsertMany s ops = some s' →
      occupied s'.table < s'.hash_groups ∧ s'.table.length = s'.hash_groups ∧
      4 ≤ s'.hash_groups ∧ s'.elements = (occupied s'.table : Int) := by
  intro ops
  induction ops with
  | nil =>
    intro s s' hlen hg4 hsz hocc h
    have : s = s' := by simpa [lpInsertMany] using h
    subst this
    exact ⟨hocc, hlen, hg4, hsz⟩
  | cons p rest ih =>
    intro s s' hlen hg4 hsz hocc h
    simp only [lpInsertMany] at h
    obtain ⟨s1, h1, h2⟩ := Option.bind_eq_some.mp h
    obtain ⟨hlen1, hg41, hsz1, hocc1⟩ := lpInsert_bound hlen hg4 hsz hocc h1
    exact ih s1 s' hlen1 hg41 hsz1 hocc1 h2

/-- Removing a present nonzero key always terminates and makes the key
unreadable by `get` (the first matching slot on its probe path is
zeroed, and `get` stops at the first empty slot on the same path). -/
theorem lpRemove_get {s : LPTable} {k : Int} (hlen : s.table.length = s.hash_groups)
    (hg : 0 < s.hash_groups) (hk : k ≠ 0)
    (hpresent : ∃ m, m < s.hash_groups ∧ (s.table.getD m (0, 0)).1 = k) :
    ∃ s2, lpRemove s k = some s2 ∧ lpGet s2 k = -1 ∧
      s2.elements = s.elements - 1 ∧ s2.hash_groups = s.hash_groups ∧
      s2.table = s.table.set (Option.getD (probeFind s.table s.hash_groups
        (fun q => q.1 == k) (homeIdx k s.hash_groups) s.hash_groups) 0) (0, 0) := by
  obtain ⟨m, hm, hmk⟩ := hpresent
  have hex : ∃ m2, m2 < s.hash_groups ∧
      ((s.table.getD m2 (0, 0)).1 == k) = true := ⟨m, hm, by rw [hmk]; simp⟩
  obtain ⟨i, hi⟩ := @probeFind_some_of_exists s.table s.hash_groups
    (fun q => q.1 == k) (homeIdx k s.hash_groups) (homeIdx_lt k hg) hex
  obtain ⟨j, hj, hji, hPi, hpath⟩ :=
    probeFind_some s.hash_groups _ i (homeIdx_lt k hg) hi
  have hilt : i < s.hash_groups := by rw [hji]; exact Nat.mod_lt _ hg
  have hstart : homeIdx k s.hash_groups < s.hash_groups := homeIdx_lt k hg
  refine ⟨⟨s.hash_groups, s.elements - 1, s.table.set i (0, 0)⟩, ?_, ?_, rfl, rfl, ?_⟩
  · unfold lpRemove
    rw [hi]
    rfl
  · -- on the probe path of `k` in the new table, position `j` is empty and
    -- no earlier position holds `k`; `get` therefore reports -1.
    have hQ : ∃ n, ((s.table.set i (0, 0)).getD
        ((homeIdx k s.hash_groups + n) % s.hash_groups) (0, 0)).1 = 0 ∧ n ≤ j := by
      refine ⟨j, ?_, le_refl j⟩
      rw [← hji, getD_set_self (0, 0) (0, 0) (by omega)]
    obtain ⟨j0, hj0empty, hj0le⟩ := hQ
    -- take the least such n
    have hfind : ∃ n, ((s.table.set i (0, 0)).getD
        ((homeIdx k s.hash_groups + n) % s.hash_groups) (0, 0)).1 = 0 := ⟨j0, hj0empty⟩
    have hspec := Nat.find_spec hfind
    have hmin : ∀ n, n < Nat.find hfind →
        ¬ ((s.table.set i (0, 0)).getD
          ((homeIdx k s.hash_groups + n) % s.hash_groups) (0, 0)).1 = 0 :=
      fun n hn => Nat.find_min hfind hn
    have hle : Nat.find hfind ≤ j0 := Nat.find_min' hfind hj0empty
    have hlej : Nat.find hfind ≤ j := le_trans hle hj0le
    have hjlt : Nat.find hfind < s.hash_groups := by omega
    have hpath2 : ∀ j2, j2 < Nat.find hfind →
        ((s.table.set i (0, 0)).getD
          ((homeIdx k s.hash_groups + j2) % s.hash_groups) (0, 0)).1 ≠ 0 ∧
        ((s.table.set i (0, 0)).getD
          ((homeIdx k s.hash_groups + j2) % s.hash_groups) (0, 0)).1 ≠ k := by
      intro j2 hj2
      have hne_i : i ≠ (homeIdx k s.hash_groups + j2) % s.hash_groups := by
        intro hc
        have hcc : (homeIdx k s.hash_groups + j) % s.hash_groups =
            (homeIdx k s.hash_groups + j2) % s.hash_groups := by rw [← hji, hc]
        have := pos_inj hj (show j2 < s.hash_groups by omega) hcc
        omega
      have hunch : (s.table.set i (0, 0)).getD
          ((homeIdx k s.hash_groups + j2) % s.hash_groups) (0, 0) =
          s.table.getD ((homeIdx k s.hash_groups + j2) % s.hash_groups) (0, 0) :=
        getD_set_ne (0, 0) (0, 0) hne_i
      constructor
      · intro hc
        exact hmin j2 hj2 hc
      · rw [hunch]
        have := hpath j2 (by omega)
        simpa using this
    have := lpGetLoop_misses hstart hjlt hspec hpath2 s.hash_groups 0 (by omega)
      (by omega)
    rw [Nat.add_zero, Nat.mod_eq_of_lt hstart] at this
    show lpGetLoop (s.table.set i (0, 0)) s.hash_groups k
      (homeIdx k s.hash_groups) (homeIdx k s.hash_groups) s.hash_groups = -1
    exact this
  · rw [hi]
    rfl
/-- Inserting key `0` (the empty sentinel): the operation terminates
whenever an empty slot exists, never changes `elements`, and writes the
value into a slot whose key field stays the empty sentinel. -/
theorem lpInsert_zero {s : LPTable} {v : Int}
    (hlen : s.table.length = s.hash_groups) (hg : 0 < s.hash_groups)
    (hempty : ∃ m, m < s.hash_groups ∧ (s.table.getD m (0, 0)).1 = 0) :
    ∃ s', lpInsert s 0 v = some s' ∧ s'.elements = s.elements ∧
      (∃ i, i < s'.hash_groups ∧ s'.table.getD i (0, 0) = (0, v)) ∧
      lpGet s' 0 = -1 := by
  by_cases hcond : 3 * (s.hash_groups : Int) ≤ 4 * s.elements
  · obtain ⟨s1, hres⟩ := lpResize_total hlen hg
    obtain ⟨hg2, he2, hlen1, _, _, _, hoc1⟩ := lpResize_spec hlen hg hres
    have hg1 : 0 < s1.hash_groups := by omega
    have hocc1 : occupied s1.table < s1.table.length := by
      have hb : occupied s.table ≤ s.table.length :=
        List.countP_le_length (fun p : Int × Int => p.1 != 0)
      rw [hlen1, hg2, hoc1]
      omega
    obtain ⟨m, hm, hm0⟩ := exists_empty_slot hocc1
    have hex : ∃ m2, m2 < s1.hash_groups ∧
        (((s1.table.getD m2 (0, 0)).1 == 0 ||
          (s1.table.getD m2 (0, 0)).1 == (0 : Int))) = true := by
      refine ⟨m, by omega, ?_⟩
      rw [hm0]
      simp
    obtain ⟨i, hi⟩ := @probeFind_some_of_exists s1.table s1.hash_groups
      (fun q => q.1 == 0 || q.1 == 0) (homeIdx 0 s1.hash_groups)
      (homeIdx_lt 0 hg1) hex
    obtain ⟨j, hj, hji, hPi, _⟩ :=
      probeFind_some s1.hash_groups _ i (homeIdx_lt 0 hg1) hi
    have hi0 : (s1.table.getD i (0, 0)).1 = 0 := by
      have := hPi
      simp only [Bool.or_self] at this
      simpa using this
    have hilt : i < s1.table.length := by
      rw [hlen1, hji]
      exact Nat.mod_lt _ hg1
    refine ⟨⟨s1.hash_groups,
      s1.elements + (if ((s1.table.getD i (0, 0)).1 == (0 : Int)) = true then 0 else 1),
      s1.table.set i (0, v)⟩, ?_, ?_, ?_, ?_⟩
    · unfold lpInsert
      rw [if_pos hcond, hres, Option.some_bind, hi]
      rfl
    · show s1.elements + _ = s.elements
      rw [if_pos (by rw [hi0]; simp : ((s1.table.getD i (0, 0)).1 == (0 : Int)) = true)]
      rw [he2]
      ring
    · refine ⟨i, ?_, ?_⟩
      · show i < s1.hash_groups
        omega
      · show (s1.table.set i (0, v)).getD i (0, 0) = (0, v)
        exact getD_set_self (0, v) (0, 0) hilt
    · show lpGetLoop (s1.table.set i (0, v)) s1.hash_groups 0 _ _ s1.hash_groups = -1
      exact lpGetLoop_key_zero _ _
  · obtain ⟨m, hm, hm0⟩ := hempty
    have hex : ∃ m2, m2 < s.hash_groups ∧
        (((s.table.getD m2 (0, 0)).1 == 0 ||
          (s.table.getD m2 (0, 0)).1 == (0 : Int))) = true := by
      refine ⟨m, by omega, ?_⟩
      rw [hm0]
      simp
    obtain ⟨i, hi⟩ := @probeFind_some_of_exists s.table s.hash_groups
      (fun q => q.1 == 0 || q.1 == 0) (homeIdx 0 s.hash_groups)
      (homeIdx_lt 0 hg) hex
    obtain ⟨j, hj, hji, hPi, _⟩ :=
      probeFind_some s.hash_groups _ i (homeIdx_lt 0 hg) hi
    have hi0 : (s.table.getD i (0, 0)).1 = 0 := by
      have := hPi
      simp only [Bool.or_self] at this
      simpa using this
    have hilt : i < s.table.length := by
      rw [hlen, hji]
      exact Nat.mod_lt _ hg
    refine ⟨⟨s.hash_groups,
      s.elements + (if ((s.table.getD i (0, 0)).1 == (0 : Int)) = true then 0 else 1),
      s.table.set i (0, v)⟩, ?_, ?_, ?_, ?_⟩
    · unfold lpInsert
      rw [if_neg hcond, Option.some_bind, hi]
      rfl
    · show s.elements + _ = s.elements
      rw [if_pos (by rw [hi0]; simp : ((s.table.getD i (0, 0)).1 == (0 : Int)) = true)]
      ring
    · refine ⟨i, ?_, ?_⟩
      · show i < s.hash_groups
        omega
      · show (s.table.set i (0, v)).getD i (0, 0) = (0, v)
        exact getD_set_self (0, v) (0, 0) hilt
    · show lpGetLoop (s.table.set i (0, v)) s.hash_groups 0 _ _ s.hash_groups = -1
      exact lpGetLoop_key_zero _ _

/-! ### Helper lemmas: the chained table -/

theorem flatten_length_set {α : Type} :
    ∀ (t : List (List α)) (i : Nat) (x : List α), i < t.length →
      (t.set i x).flatten.length + (t.getD i []).length =
        t.flatten.length + x.length := by
  intro t
  induction t with
  | nil => intro i x h; simp at h
  | cons b bs ih =>
    intro i x h
    cases i with
    | zero =>
      simp only [List.set_cons_zero, List.flatten_cons, List.getD_cons_zero,
        List.length_append]
      omega
    | succ n =>
      have hn : n < bs.length := by simpa using h
      have := ih n x hn
      simp only [List.set_cons_succ, List.flatten_cons, List.getD_cons_succ,
        List.length_append]
      omega

theorem flatten_eq_getD {α : Type} :
    ∀ (l : List (List α)) (i : Nat), i < l.length →
      (∀ j, j < l.length → j ≠ i → l.getD j [] = []) →
      l.flatten = l.getD i [] := by
  intro l
  induction l with
  | nil => intro i h; simp at h
  | cons b bs ih =>
    intro i hi hall
    cases i with
    | zero =>
      have hbs : bs.flatten = [] := by
        rw [List.flatten_eq_nil_iff]
        intro x hx
        obtain ⟨n, hn, hxn⟩ := List.mem_iff_getElem.mp hx
        have := hall (n + 1) (by simpa using hn) (by omega)
        rw [← hxn, ← getD_eq_getElem [] hn]
        simpa using this
      simp [List.flatten_cons, hbs]
    | succ n =>
      have hb : b = [] := by
        have := hall 0 (by omega) (by omega)
        simpa using this
      have hn : n < bs.length := by simpa using hi
      have := ih n hn (fun j hj hji =>
        hall (j + 1) (by simpa using hj) (by omega))
      simp [List.flatten_cons, hb, this]

theorem getD_map_filter {t : List (List (Int × Int))} {j : Nat}
    (p : Int × Int → Bool) (h : j < t.length) :
    (t.map (List.filter p)).getD j [] = (t.getD j []).filter p := by
  rw [getD_eq_getElem [] (by simpa using h), getD_eq_getElem [] h]
  simp

theorem filter_flatten_segregated {t : List (List (Int × Int))} {g : Nat}
    (hlen : t.length = g) (hg : 0 < g) (hhome : homeProp t g) (k : Int) :
    t.flatten.filter (fun p => p.1 == k) =
      (t.getD (homeIdx k g) []).filter (fun p => p.1 == k) := by
  rw [List.filter_flatten]
  have hik : homeIdx k g < t.length := by rw [hlen]; exact homeIdx_lt k hg
  have := flatten_eq_getD (t.map (List.filter (fun p => p.1 == k)))
    (homeIdx k g) (by simpa using hik) ?_
  · rw [this, getD_map_filter _ hik]
  · intro j hj hji
    rw [List.length_map] at hj
    rw [getD_map_filter _ hj]
    rw [List.filter_eq_nil_iff]
    intro a ha hak
    have hak2 : a.1 = k := by simpa using hak
    have := hhome j (by omega) a ha
    rw [hak2] at this
    exact hji this.symm

theorem find?_eq_head_filter {α : Type} (p : α → Bool) :
    ∀ l : List α, l.find? p = (l.filter p).head? := by
  intro l
  induction l with
  | nil => simp
  | cons a rest ih =>
    by_cases hp : p a = true
    · rw [List.find?_cons_of_pos rest hp, List.filter_cons_of_pos hp]
      simp
    · rw [List.find?_cons_of_neg rest hp, List.filter_cons_of_neg hp]
      exact ih

theorem filter_eraseP {α : Type} (p : α → Bool) :
    ∀ l : List α, (l.eraseP p).filter p = (l.filter p).tail := by
  intro l
  induction l with
  | nil => simp
  | cons a rest ih =>
    by_cases hp : p a = true
    · rw [List.eraseP_cons_of_pos hp, List.filter_cons_of_pos hp]
      simp
    · rw [List.eraseP_cons_of_neg hp, List.filter_cons_of_neg hp,
        List.filter_cons_of_neg hp]
      exact ih

theorem filter_eraseP_disjoint {α : Type} (p q : α → Bool)
    (h : ∀ a, p a = true → q a = false) :
    ∀ l : List α, (l.eraseP p).filter q = l.filter q := by
  intro l
  induction l with
  | nil => simp
  | cons a rest ih =>
    by_cases hp : p a = true
    · rw [List.eraseP_cons_of_pos hp,
        List.filter_cons_of_neg (by simp [h a hp] : ¬ q a = true)]
    · rw [List.eraseP_cons_of_neg hp]
      by_cases hq : q a = true
      · rw [List.filter_cons_of_pos hq, List.filter_cons_of_pos hq, ih]
      · rw [List.filter_cons_of_neg hq, List.filter_cons_of_neg hq, ih]

theorem chRehash_fold {g2 : Nat} (hg2 : 0 < g2) :
    ∀ (es : List (Int × Int)) (nt : List (List (Int × Int))), nt.length = g2 →
      (∀ k : Int,
        ((es.foldl (chRehashStep g2) nt).getD (homeIdx k g2) []).filter
          (fun p => p.1 == k) =
        ((nt.getD (homeIdx k g2) []).filter (fun p => p.1 == k)) ++
          es.filter (fun p => p.1 == k)) ∧
      (es.foldl (chRehashStep g2) nt).length = g2 ∧
      (homeProp nt g2 → homeProp (es.foldl (chRehashStep g2) nt) g2) ∧
      (es.foldl (chRehashStep g2) nt).flatten.length =
        nt.flatten.length + es.length := by
  intro es
  induction es with
  | nil => intro nt hlen; simp [hlen]
  | cons p rest ih =>
    intro nt hlen
    have hp_lt : homeIdx p.1 g2 < nt.length := by rw [hlen]; exact homeIdx_lt p.1 hg2
    have hstep_len : (chRehashStep g2 nt p).length = g2 := by
      unfold chRehashStep
      rw [List.length_set]
      exact hlen
    have hstep_getD : ∀ k : Int,
        (chRehashStep g2 nt p).getD (homeIdx k g2) [] =
          if homeIdx k g2 = homeIdx p.1 g2
          then (nt.getD (homeIdx p.1 g2) []) ++ [p]
          else nt.getD (homeIdx k g2) [] := by
      intro k
      unfold chRehashStep
      by_cases hkp : homeIdx k g2 = homeIdx p.1 g2
      · rw [if_pos hkp, hkp]
        exact getD_set_self _ [] hp_lt
      · rw [if_neg hkp]
        exact getD_set_ne _ [] (fun hc => hkp hc.symm)
    have hstep_filter : ∀ k : Int,
        ((chRehashStep g2 nt p).getD (homeIdx k g2) []).filter (fun q => q.1 == k) =
          ((nt.getD (homeIdx k g2) []).filter (fun q => q.1 == k)) ++
            (if p.1 == k then [p] else []) := by
      intro k
      rw [hstep_getD k]
      by_cases hkp : homeIdx k g2 = homeIdx p.1 g2
      · rw [if_pos hkp, List.filter_append, hkp]
        congr 1
        by_cases hpk : p.1 = k
        · rw [if_pos (by simpa using hpk)]
          simp [hpk]
        · rw [if_neg (by simpa using hpk)]
          simp [hpk]
      · rw [if_neg hkp]
        have hpk : ¬ p.1 = k := by
          intro hc
          apply hkp
          rw [← hc]
        rw [if_neg (by simpa using hpk)]
        simp
    obtain ⟨ihf, ihlen, ihhome, ihflat⟩ := ih (chRehashStep g2 nt p) hstep_len
    refine ⟨?_, ?_, ?_, ?_⟩
    · intro k
      show ((List.foldl (chRehashStep g2) (chRehashStep g2 nt p) rest).getD
        (homeIdx k g2) []).filter (fun q => q.1 == k) = _
      rw [ihf k, hstep_filter k]
      rw [List.append_assoc]
      congr 1
      rw [List.filter_cons]
      by_cases hpk : (p.1 == k) = true
      · rw [if_pos hpk, if_pos hpk]
        rfl
      · rw [if_neg hpk, if_neg hpk]
        simp
    · exact ihlen
    · intro hhome
      apply ihhome
      intro i hi q hq
      unfold chRehashStep at hq
      by_cases hip : i = homeIdx p.1 g2
      · rw [hip, getD_set_self _ [] hp_lt] at hq
        rcases List.mem_append.mp hq with hq1 | hq2
        · rw [hip] at hi ⊢
          exact hhome (homeIdx p.1 g2) hi q hq1
        · rw [List.mem_singleton] at hq2
          rw [hq2, hip]
      · rw [getD_set_ne _ [] (fun hc => hip hc.symm)] at hq
        exact hhome i hi q hq
    · rw [List.foldl_cons, ihflat]
      have := flatten_length_set nt (homeIdx p.1 g2)
        ((nt.getD (homeIdx p.1 g2) []) ++ [p]) hp_lt
      unfold chRehashStep
      simp only [List.length_append, List.length_cons, List.length_nil] at this
      simp only [List.length_cons]
      omega

theorem chResize_spec {s : CHTable} (hlen : s.table.length = s.hash_groups)
    (hg : 0 < s.hash_groups) (hhome : homeProp s.table s.hash_groups) :
    CHWF (chResize s) ∧ (chResize s).elements = s.elements ∧
    numEntriesCH (chResize s) = numEntriesCH s ∧
    ∀ k : Int, keyEntries (chResize s) k = keyEntries s k := by
  unfold chResize
  by_cases hcond : Int.tdiv s.elements (s.hash_groups : Int) < 3
  · rw [if_pos hcond]
    exact ⟨⟨hlen, hg, hhome⟩, rfl, rfl, fun _ => rfl⟩
  · rw [if_neg hcond]
    have hg2 : 0 < s.hash_groups * 2 := by omega
    have hrep_len : (List.replicate (s.hash_groups * 2)
        ([] : List (Int × Int))).length = s.hash_groups * 2 := by simp
    obtain ⟨hf, hlen2, hhome2, hflat⟩ :=
      chRehash_fold hg2 s.table.flatten (List.replicate (s.hash_groups * 2) []) hrep_len
    have hrep_home : homeProp (List.replicate (s.hash_groups * 2) [])
        (s.hash_groups * 2) := by
      intro i hi q hq
      rw [getD_replicate [] [] hi] at hq
      simp at hq
    have hrep_flat : (List.replicate (s.hash_groups * 2)
        ([] : List (Int × Int))).flatten = [] := by
      rw [List.flatten_eq_nil_iff]
      intro x hx
      rw [List.mem_replicate] at hx
      exact hx.2
    refine ⟨⟨hlen2, hg2, hhome2 hrep_home⟩, rfl, ?_, ?_⟩
    · show (List.foldl (chRehashStep (s.hash_groups * 2))
        (List.replicate (s.hash_groups * 2) []) s.table.flatten).flatten.length =
        s.table.flatten.length
      rw [hflat, hrep_flat]
      simp
    · intro k
      unfold keyEntries
      show List.filter (fun p => p.1 == k)
          ((List.foldl (chRehashStep (s.hash_groups * 2))
            (List.replicate (s.hash_groups * 2) []) s.table.flatten).getD
            (homeIdx k (s.hash_groups * 2)) []) =
        List.filter (fun p => p.1 == k)
          (s.table.getD (homeIdx k s.hash_groups) [])
      rw [hf k, getD_replicate [] [] (homeIdx_lt k hg2),
        filter_flatten_segregated hlen hg hhome k]
      simp

theorem chInsert_spec {s : CHTable} {k v : Int} (hwf : CHWF s) :
    CHWF (chInsert s k v) ∧ (chInsert s k v).elements = s.elements + 1 ∧
    numEntriesCH (chInsert s k v) = numEntriesCH s + 1 ∧
    (∀ k0 : Int, keyEntries (chInsert s k v) k0 =
      keyEntries s k0 ++ (if k0 = k then [(k, v)] else [])) := by
  obtain ⟨hlen, hg, hhome⟩ := hwf
  have hk_lt : homeIdx k s.hash_groups < s.table.length := by
    rw [hlen]; exact homeIdx_lt k hg
  set s1 : CHTable := ⟨s.hash_groups, s.elements + 1,
    s.table.set (homeIdx k s.hash_groups)
      ((s.table.getD (homeIdx k s.hash_groups) []) ++ [(k, v)])⟩ with hs1
  have hlen1 : s1.table.length = s1.hash_groups := by
    rw [hs1]
    show (s.table.set _ _).length = s.hash_groups
    rw [List.length_set]
    exact hlen
  have hhome1 : homeProp s1.table s1.hash_groups := by
    intro i hi q hq
    rw [hs1] at hq
    by_cases hik : i = homeIdx k s.hash_groups
    · rw [hik, getD_set_self _ [] hk_lt] at hq
      rcases List.mem_append.mp hq with hq1 | hq2
      · rw [hik] at hi ⊢
        exact hhome (homeIdx k s.hash_groups) hi q hq1
      · rw [List.mem_singleton] at hq2
        rw [hq2, hik]
    · rw [getD_set_ne _ [] (fun hc => hik hc.symm)] at hq
      exact hhome i hi q hq
  have hflat1 : numEntriesCH s1 = numEntriesCH s + 1 := by
    unfold numEntriesCH
    have := flatten_length_set s.table (homeIdx k s.hash_groups)
      ((s.table.getD (homeIdx k s.hash_groups) []) ++ [(k, v)]) hk_lt
    simp only [List.length_append, List.length_cons, List.length_nil] at this
    rw [hs1]
    show (s.table.set _ _).flatten.length = _
    omega
  have hkey1 : ∀ k0 : Int, keyEntries s1 k0 =
      keyEntries s k0 ++ (if k0 = k then [(k, v)] else []) := by
    intro k0
    unfold keyEntries
    rw [hs1]
    show ((s.table.set (homeIdx k s.hash_groups) _).getD
      (homeIdx k0 s.hash_groups) []).filter _ = _
    by_cases hk0k : homeIdx k0 s.hash_groups = homeIdx k s.hash_groups
    · rw [hk0k, getD_set_self _ [] hk_lt, List.filter_append]
      congr 1
      by_cases hkk : k0 = k
      · rw [if_pos hkk]
        simp [hkk]
      · rw [if_neg hkk]
        have hne2 : (k == k0) = false := by
          simpa using fun hc => hkk hc.symm
        simp [hne2]
    · rw [getD_set_ne _ [] (fun hc => hk0k hc.symm)]
      have hkk : ¬ k0 = k := by
        intro hc
        apply hk0k
        rw [hc]
      rw [if_neg hkk]
      simp
  have hresize := chResize_spec hlen1 (by rw [hs1]; exact hg) hhome1
  obtain ⟨hwf2, hel2, hnum2, hkey2⟩ := hresize
  have hinsert_eq : chInsert s k v = chResize s1 := rfl
  rw [hinsert_eq]
  refine ⟨hwf2, ?_, ?_, ?_⟩
  · rw [hel2, hs1]
  · rw [hnum2, hflat1]
  · intro k0
    rw [hkey2 k0, hkey1 k0]

theorem chGet_eq_keyEntries (s : CHTable) (k : Int) :
    chGet s k = ((keyEntries s k).head?.map (fun p => p.2)).getD (-1) := by
  unfold chGet keyEntries
  rw [find?_eq_head_filter]
  cases ((s.table.getD (homeIdx k s.hash_groups) []).filter
    (fun p => p.1 == k)).head? with
  | none => rfl
  | some p => rfl

theorem chRemove_found {s : CHTable} {k : Int} (hne : keyEntries s k ≠ []) :
    keyEntries (chRemove s k) k = (keyEntries s k).tail ∧
    (chRemove s k).elements = s.elements - 1 ∧
    (chRemove s k).hash_groups = s.hash_groups ∧
    numEntriesCH (chRemove s k) + 1 = numEntriesCH s ∧
    (CHWF s → CHWF (chRemove s k)) ∧
    (∀ k0 : Int, k0 ≠ k → keyEntries (chRemove s k) k0 = keyEntries s k0) := by
  have hmem : ∃ q ∈ s.table.getD (homeIdx k s.hash_groups) [],
      (fun p : Int × Int => p.1 == k) q = true := by
    unfold keyEntries at hne
    by_contra hno
    push_neg at hno
    apply hne
    rw [List.filter_eq_nil_iff]
    intro a ha hak
    exact absurd hak (by simpa using hno a ha)
  obtain ⟨q, hq, hqk⟩ := hmem
  have hany : (s.table.getD (homeIdx k s.hash_groups) []).any
      (fun p => p.1 == k) = true :=
    List.any_eq_true.mpr ⟨q, hq, hqk⟩
  have hbkt_ne : s.table.getD (homeIdx k s.hash_groups) [] ≠ [] := by
    intro hc
    rw [hc] at hq
    exact absurd hq (List.not_mem_nil q)
  have hi_lt : homeIdx k s.hash_groups < s.table.length := by
    by_contra hc
    rw [getD_eq_default [] (by omega)] at hbkt_ne
    exact hbkt_ne rfl
  have hremove_eq : chRemove s k = ⟨s.hash_groups, s.elements - 1,
      s.table.set (homeIdx k s.hash_groups)
        ((s.table.getD (homeIdx k s.hash_groups) []).eraseP
          (fun p => p.1 == k))⟩ := by
    unfold chRemove
    rw [if_pos hany]
  rw [hremove_eq]
  refine ⟨?_, rfl, rfl, ?_, ?_, ?_⟩
  · unfold keyEntries
    show ((s.table.set _ _).getD (homeIdx k s.hash_groups) []).filter _ = _
    rw [getD_set_self _ [] hi_lt]
    exact filter_eraseP _ _
  · unfold numEntriesCH
    have hflat := flatten_length_set s.table (homeIdx k s.hash_groups)
      ((s.table.getD (homeIdx k s.hash_groups) []).eraseP
        (fun p => p.1 == k)) hi_lt
    have hlen_er : ((s.table.getD (homeIdx k s.hash_groups) []).eraseP
        (fun p => p.1 == k)).length + 1 =
        (s.table.getD (homeIdx k s.hash_groups) []).length := by
      rw [List.length_eraseP_of_mem hq hqk]
      have : 0 < (s.table.getD (homeIdx k s.hash_groups) []).length :=
        List.length_pos.mpr hbkt_ne
      omega
    show ((s.table.set _ _).flatten).length + 1 = _
    omega
  · rintro ⟨hlen, hg, hhome⟩
    refine ⟨?_, hg, ?_⟩
    · show (s.table.set _ _).length = s.hash_groups
      rw [List.length_set]
      exact hlen
    · intro i hi p hp
      by_cases hik : i = homeIdx k s.hash_groups
      · rw [hik, getD_set_self _ [] hi_lt] at hp
        have := List.mem_of_mem_eraseP hp
        rw [hik]
        exact hhome (homeIdx k s.hash_groups) (by rw [← hik]; exact hi) p this
      · rw [getD_set_ne _ [] (fun hc => hik hc.symm)] at hp
        exact hhome i hi p hp
  · intro k0 hk0
    unfold keyEntries
    show ((s.table.set _ _).getD (homeIdx k0 s.hash_groups) []).filter _ = _
    by_cases hik : homeIdx k0 s.hash_groups = homeIdx k s.hash_groups
    · rw [hik, getD_set_self _ [] hi_lt]
      refine filter_eraseP_disjoint _ _ ?_ _
      intro a ha
      have ha2 : a.1 = k := by simpa using ha
      rw [ha2]
      simpa using fun hc => hk0 hc.symm
    · rw [getD_set_ne _ [] (fun hc => hik hc.symm)]

theorem chRemove_absent {s : CHTable} {k : Int}
    (h : (s.table.getD (homeIdx k s.hash_groups) []).any
      (fun p => p.1 == k) = false) : chRemove s k = s := by
  unfold chRemove
  rw [if_neg (by rw [h]; simp)]

theorem chInsertMany_spec :
    ∀ (ops : List (Int × Int)) (s : CHTable) (L : List (Int × Int)),
      CHWF s → (∀ k : Int, keyEntries s k = L.filter (fun p => p.1 == k)) →
      CHWF (chInsertMany s ops) ∧
      (chInsertMany s ops).elements = s.elements + ops.length ∧
      ∀ k : Int, keyEntries (chInsertMany s ops) k =
        (L ++ ops).filter (fun p => p.1 == k) := by
  intro ops
  induction ops with
  | nil =>
    intro s L hwf hinv
    refine ⟨hwf, by simp [chInsertMany], ?_⟩
    intro k
    simpa [chInsertMany] using hinv k
  | cons p rest ih =>
    intro s L hwf hinv
    obtain ⟨hwf1, hel1, hnum1, hkey1⟩ := @chInsert_spec s p.1 p.2 hwf
    have hstep : chInsertMany s (p :: rest) = chInsertMany (chInsert s p.1 p.2) rest := by
      unfold chInsertMany
      rfl
    rw [hstep]
    have hinv1 : ∀ k : Int, keyEntries (chInsert s p.1 p.2) k =
        (L ++ [p]).filter (fun q => q.1 == k) := by
      intro k
      rw [hkey1 k, hinv k, List.filter_append]
      congr 1
      by_cases hkp : k = p.1
      · rw [if_pos hkp]
        have : (p.1, p.2) = p := rfl
        rw [this]
        have hp1 : (p.1 == k) = true := by simpa using hkp.symm
        simp [List.filter_cons, hp1]
      · rw [if_neg hkp]
        have hp1 : (p.1 == k) = false := by simpa using fun hc => hkp hc.symm
        simp [List.filter_cons, hp1]
    obtain ⟨hwf2, hel2, hkey2⟩ := ih (chInsert s p.1 p.2) (L ++ [p]) hwf1 hinv1
    refine ⟨hwf2, ?_, ?_⟩
    · rw [hel2, hel1]
      simp
      omega
    · intro k
      rw [hkey2 k, List.append_assoc]
      rfl

theorem CHWF_chEmpty (g : Nat) (hg : 0 < g) : CHWF (chEmpty g) := by
  refine ⟨by simp [chEmpty], hg, ?_⟩
  intro i hi q hq
  have hq2 : q ∈ (List.replicate g ([] : List (Int × Int))).getD i [] := hq
  have hi2 : i < g := hi
  rw [getD_replicate [] [] hi2] at hq2
  simp at hq2

theorem keyEntries_chEmpty (g : Nat) (hg : 0 < g) (k : Int) :
    keyEntries (chEmpty g) k = [] := by
  unfold keyEntries chEmpty
  rw [getD_replicate [] [] (homeIdx_lt k hg)]
  rfl

theorem lpGet_of_mem {s : LPTable} {k v : Int}
    (hlen : s.table.length = s.hash_groups) (hg : 0 < s.hash_groups)
    (hk : k ≠ 0) (huniq : keyCount s.table k ≤ 1)
    (hinv : lpInv s.table s.hash_groups) (hmem : (k, v) ∈ s.table) :
    lpGet s k = v := by
  obtain ⟨m, hm, hmq⟩ := exists_getD_of_mem hmem (0, 0)
  have hreach := hinv m (by omega) (by rw [hmq]; exact hk)
  rw [hmq] at hreach
  exact lpGet_found hlen hg hk hmem huniq hreach

theorem entriesFor_singleton {t : List (Int × Int)} {k v : Int}
    (hcount : keyCount t k = 1) (hval : ∀ v0 : Int, (k, v0) ∈ t → v0 = v) :
    entriesFor t k = [(k, v)] := by
  have hlenf : (t.filter (fun p => p.1 == k)).length = 1 := by
    rw [← List.countP_eq_length_filter]
    exact hcount
  obtain ⟨q, hq⟩ := List.length_eq_one.mp hlenf
  have hqmem : q ∈ t.filter (fun p => p.1 == k) := by rw [hq]; simp
  obtain ⟨hqt, hqk⟩ := List.mem_filter.mp hqmem
  have hq1 : q.1 = k := by simpa using hqk
  have hqpair : q = (k, q.2) := Prod.ext hq1 rfl
  have hq2 : q.2 = v := by
    apply hval q.2
    rw [← hqpair]
    exact hqt
  unfold entriesFor
  rw [hq, hqpair, hq2]

theorem lpRemove_size {s s2 : LPTable} {k : Int}
    (hlen : s.table.length = s.hash_groups) (hg : 0 < s.hash_groups)
    (hk : k ≠ 0) (hsz : s.elements = (occupied s.table : Int))
    (h : lpRemove s k = some s2) :
    s2.elements = (occupied s2.table : Int) := by
  unfold lpRemove at h
  obtain ⟨i, hfind, heq⟩ := Option.map_eq_some'.mp h
  obtain ⟨j, hj, hji, hPi, _⟩ :=
    probeFind_some s.hash_groups _ i (homeIdx_lt k hg) hfind
  have hkeq : (s.table.getD i (0, 0)).1 = k := by simpa using hPi
  have hi_lt : i < s.table.length := by
    rw [hlen, hji]
    exact Nat.mod_lt _ hg
  have hc := countP_set (0, 0) (0, 0) (fun r => r.1 != 0) hi_lt
  beta_reduce at hc
  rw [hkeq] at hc
  have e1 : ((k : Int) != 0) = true := by simpa using hk
  have e2 : (((0 : Int), (0 : Int)).1 != 0) = false := by simp
  rw [e1, e2] at hc
  norm_num at hc
  have hocc_pos : 0 < occupied s.table := by
    unfold occupied
    apply List.countP_pos_iff.mpr
    refine ⟨s.table.getD i (0, 0), getD_mem (0, 0) hi_lt, ?_⟩
    rw [hkeq]
    simpa using hk
  rw [← heq]
  show s.elements - 1 = (occupied (s.table.set i (0, 0)) : Int)
  unfold occupied at hocc_pos hsz ⊢
  have hcc : List.countP (fun p : Int × Int => p.1 != 0)
      (s.table.set i ((0 : Int), (0 : Int))) + 1 =
      List.countP (fun p : Int × Int => p.1 != 0) s.table := hc
  rw [hsz]
  push_cast
  omega

/-! ### Claims -/

/-- C4 counterexample: on a negative key the C++ truncated modulo used by
both tables differs from the spec's normalized modulo and is out of the
bucket range: `(-1) % 5` is `-1` in C++, while `(((-1) % 5) + 5) % 5 = 4`. -/
theorem c4_counterexample :
    indexOfC (-1) 5 = -1 ∧ specNormIndex (-1) 5 = 4 ∧
    ¬ (0 ≤ indexOfC (-1) 5 ∧ indexOfC (-1) 5 < 5) := by
  decide

/-- C4 (amended): restricted to nonnegative keys, the bucket index the
code computes (`key % hash_groups` with C++ truncated modulo, and the
`homeIdx` used by every table operation) equals the spec's normalized
modulo `((key % n) + n) % n` and lies in `[0, n)`. -/
theorem c4_index_nonneg (key : Int) (g : Nat) (hk : 0 ≤ key) (hg : 0 < g) :
    indexOfC key (g : Int) = specNormIndex key (g : Int) ∧
    0 ≤ indexOfC key (g : Int) ∧ indexOfC key (g : Int) < (g : Int) ∧
    (homeIdx key g : Int) = indexOfC key (g : Int) := by
  have hgz : (g : Int) ≠ 0 := by
    simp
    omega
  have hgpos : (0 : Int) < (g : Int) := by exact_mod_cast hg
  have hgnn : (0 : Int) ≤ (g : Int) := le_of_lt hgpos
  have h1 : indexOfC key (g : Int) = key % (g : Int) := by
    unfold indexOfC
    exact Int.tmod_eq_emod hk hgnn
  have hmodnn : 0 ≤ key % (g : Int) := Int.emod_nonneg key hgz
  have h2 : specNormIndex key (g : Int) = key % (g : Int) := by
    unfold specNormIndex
    rw [Int.tmod_eq_emod hk hgnn]
    rw [Int.tmod_eq_emod (by omega) hgnn]
    have e : key % (g : Int) + (g : Int) = key % (g : Int) + (g : Int) * 1 := by
      ring
    rw [e, Int.add_mul_emod_self_left, Int.emod_emod]
  refine ⟨by rw [h1, h2], by rw [h1]; exact hmodnn, ?_, ?_⟩
  · rw [h1]
    exact Int.emod_lt_of_pos key hgpos
  · rw [homeIdx_cast g hk]
    rfl

/-- C4 witness: the amended statement at key 7, 5 buckets. -/
theorem c4_witness :
    indexOfC 7 ((5 : Nat) : Int) = specNormIndex 7 ((5 : Nat) : Int) ∧
    0 ≤ indexOfC 7 ((5 : Nat) : Int) ∧
    indexOfC 7 ((5 : Nat) : Int) < ((5 : Nat) : Int) ∧
    (homeIdx 7 5 : Int) = indexOfC 7 ((5 : Nat) : Int) :=
  c4_index_nonneg 7 5 (by decide) (by decide)

/-- C5: the probing `get` needs at most `hash_groups` probes — giving its
loop any amount of extra fuel beyond `hash_groups` cannot change the
result (the start-index check stops it) — and the result is either the
`-1` sentinel or the value field of a slot holding the key. -/
theorem c5_get_bounded (s : LPTable) (k : Int) (extra : Nat)
    (hlen : s.table.length = s.hash_groups) (hg : 0 < s.hash_groups) :
    lpGetLoop s.table s.hash_groups k (homeIdx k s.hash_groups)
      (homeIdx k s.hash_groups) (s.hash_groups + extra) = lpGet s k ∧
    lpGetSpec s k := by
  have hs : homeIdx k s.hash_groups < s.hash_groups := homeIdx_lt k hg
  constructor
  · have := @lpGetLoop_fuel s.table s.hash_groups k (homeIdx k s.hash_groups)
      hs (s.hash_groups + extra) s.hash_groups 0 (by omega) (by omega) (by omega)
    rw [Nat.add_zero, Nat.mod_eq_of_lt hs] at this
    exact this
  · unfold lpGetSpec lpGet
    exact lpGetLoop_result hlen s.hash_groups (homeIdx k s.hash_groups)

/-- C5 witness: the bounded-get statement on a concrete 5-slot table. -/
theorem c5_witness :
    lpGetLoop (lpEmpty 5).table (lpEmpty 5).hash_groups 7
      (homeIdx 7 (lpEmpty 5).hash_groups) (homeIdx 7 (lpEmpty 5).hash_groups)
      ((lpEmpty 5).hash_groups + 3) = lpGet (lpEmpty 5) 7 ∧
    lpGetSpec (lpEmpty 5) 7 :=
  c5_get_bounded (lpEmpty 5) 7 3 (by decide) (by decide)

/-- C10: inserting key `0` into any probing table with an empty slot
terminates, leaves `elements` unchanged, writes the value into a slot
whose key field is the empty sentinel `0`, and a subsequent `get 0`
returns `-1`: key 0 can never be stored retrievably and no error is
signalled. -/
theorem c10_insert_key_zero (s : LPTable) (v : Int)
    (hlen : s.table.length = s.hash_groups) (hg : 0 < s.hash_groups)
    (hempty : ∃ m, m < s.hash_groups ∧ (s.table.getD m (0, 0)).1 = 0) :
    ∃ s', lpInsert s 0 v = some s' ∧ s'.elements = s.elements ∧
      (∃ i, i < s'.hash_groups ∧ s'.table.getD i (0, 0) = (0, v)) ∧
      lpGet s' 0 = -1 :=
  lpInsert_zero hlen hg hempty

/-- C10 witness: inserting `(0, 42)` into the fresh 5-slot table. -/
theorem c10_witness :
    ∃ s', lpInsert (lpEmpty 5) 0 42 = some s' ∧
      s'.elements = (lpEmpty 5).elements ∧
      (∃ i, i < s'.hash_groups ∧ s'.table.getD i (0, 0) = (0, 42)) ∧
      lpGet s' 0 = -1 :=
  c10_insert_key_zero (lpEmpty 5) 42 (by decide) (by decide) ⟨0, by decide⟩

/-- C3 counterexample: with initial bucket count 2, two inserts fill the
table completely — the occupied-slot count reaches `bucket_count` (no
resize fires first: `1 ≥ 0.75·2` is false), contradicting the claim for
arbitrary initial bucket counts. -/
theorem c3_counterexample :
    (lpInsertMany (lpEmpty 2) [(1, 10), (2, 20)]).map
      (fun s => (occupied s.table, s.hash_groups)) = some (2, 2) := by
  decide

/-- C3 (amended): for every initial bucket count at least 4 and every
insert sequence (nonnegative keys, the domain on which the embedding is
faithful), the occupied-slot count stays strictly below `bucket_count`:
the pre-insert resize at the 0.75 threshold keeps at least one slot
empty.  Initial bucket counts 1, 2 and 3 admit counterexamples. -/
theorem c3_load_factor (g0 : Nat) (ops : List (Int × Int)) (s' : LPTable)
    (hg0 : 4 ≤ g0) (hkeys : ∀ p ∈ ops, 0 ≤ p.1)
    (h : lpInsertMany (lpEmpty g0) ops = some s') :
    occupied s'.table < s'.hash_groups := by
  have hocc0 : occupied (lpEmpty g0).table = 0 := by
    unfold occupied lpEmpty
    rw [List.countP_eq_zero]
    intro a ha
    rw [List.mem_replicate] at ha
    rw [ha.2]
    simp
  have := lpInsertMany_bound ops (lpEmpty g0) s' (by simp [lpEmpty]) hg0
    (by rw [hocc0]; simp [lpEmpty]) (by rw [hocc0]; show 0 < g0; omega) h
  exact this.1

/-- C3 witness: one insert into a 5-bucket table. -/
theorem c3_witness :
    occupied (⟨5, 1, [(0, 0), (1, 10), (0, 0), (0, 0), (0, 0)]⟩ : LPTable).table <
      (⟨5, 1, [(0, 0), (1, 10), (0, 0), (0, 0), (0, 0)]⟩ : LPTable).hash_groups :=
  c3_load_factor 5 [(1, 10)] _ (by decide) (by decide) (by decide)

/-- C2 counterexample: from the reachable state with keys 1 and 6 (home
index 1 both), `remove 1` zeroes slot 1; key 6 is still present in slot 2
but the forward scan from its home index 1 now meets the empty slot 1
first: the probe invariant is not preserved by `remove`. -/
theorem c2_counterexample :
    lpInv [((0 : Int), (0 : Int)), (1, 10), (6, 60), (0, 0), (0, 0)] 5 ∧
    lpRemove (⟨5, 2, [(0, 0), (1, 10), (6, 60), (0, 0), (0, 0)]⟩ : LPTable) 1 =
      some ⟨5, 1, [(0, 0), (0, 0), (6, 60), (0, 0), (0, 0)]⟩ ∧
    (([((0 : Int), (0 : Int)), (0, 0), (6, 60), (0, 0), (0, 0)].getD 2 (0, 0)).1 = 6) ∧
    ¬ probeReach [((0 : Int), (0 : Int)), (0, 0), (6, 60), (0, 0), (0, 0)] 5 6 := by
  refine ⟨by decide, by decide, by decide, by decide⟩

/-- C2 (amended): the probe-path invariant is preserved by `insert` (for
a nonnegative key) and re-established from scratch by every completed
`resize`; `get` does not mutate the table at all in the embedding.  Only
`remove` breaks it (see the counterexample). -/
theorem c2_probe_invariant (s s1 r r1 : LPTable) (k v : Int)
    (hlen : s.table.length = s.hash_groups) (hg : 0 < s.hash_groups)
    (hinv : lpInv s.table s.hash_groups) (hk : 0 ≤ k)
    (hins : lpInsert s k v = some s1)
    (hrlen : r.table.length = r.hash_groups) (hrg : 0 < r.hash_groups)
    (hres : lpResize r = some r1) :
    lpInv s1.table s1.hash_groups ∧ lpInv r1.table r1.hash_groups := by
  have h1 := lpInsert_lpInv hlen hg hinv hins
  have h2 := lpResize_spec hrlen hrg hres
  exact ⟨h1.2.2, h2.2.2.2.1⟩

/-- C2 witness: insert (1,10) into the fresh 5-slot table and resize the
fresh 5-slot table. -/
theorem c2_witness :
    lpInv (⟨5, 1, [(0, 0), (1, 10), (0, 0), (0, 0), (0, 0)]⟩ : LPTable).table
      (⟨5, 1, [(0, 0), (1, 10), (0, 0), (0, 0), (0, 0)]⟩ : LPTable).hash_groups ∧
    lpInv (⟨10, 0, List.replicate 10 (0, 0)⟩ : LPTable).table
      (⟨10, 0, List.replicate 10 (0, 0)⟩ : LPTable).hash_groups :=
  c2_probe_invariant (lpEmpty 5) _ (lpEmpty 5) _ 1 10 (by decide) (by decide)
    (by decide) (by decide) (by decide) (by decide) (by decide) (by decide)

/-- C1: after any sequence of positive-key inserts into an initially
empty table (resizes included), every inserted key is retrievable by
`get` with its correct value: the most recently inserted value in the
probing table (update-in-place), the first inserted value in the chained
table (first chain match).  The Scenario A/B/C sequence on 5-bucket
tables triggers at least one resize (final bucket counts 10 and 40) and
`get 20 = 2000` holds on both tables afterwards. -/
theorem c1_resize_retrievable (g0 : Nat) (ops : List (Int × Int))
    (sL : LPTable) (k v w : Int) (hg0 : 0 < g0)
    (hpos : ∀ p ∈ ops, 0 < p.1)
    (hlp : lpInsertMany (lpEmpty g0) ops = some sL) (hk : k ≠ 0)
    (hlast : lookupLast ops k = some v) (hfirst : lookupFirst ops k = some w) :
    lpGet sL k = v ∧ chGet (chInsertMany (chEmpty g0) ops) k = w ∧
    chGet chScenario 20 = 2000 ∧ chScenario.hash_groups = 10 ∧
    lpScenario.map (fun s => (lpGet s 20, s.hash_groups)) = some (2000, 40) := by
  refine ⟨?_, ?_, by decide, by decide, by decide⟩
  · have hinv := lpInsertMany_LPINV ops (lpEmpty g0) sL []
      (LPINV_lpEmpty g0 hg0) hpos hlp
    rw [List.nil_append] at hinv
    exact LPINV_get hinv hk hlast
  · obtain ⟨hwf, hel, hkey⟩ := chInsertMany_spec ops (chEmpty g0) []
      (CHWF_chEmpty g0 hg0) (fun k0 => by rw [keyEntries_chEmpty g0 hg0 k0]; rfl)
    rw [chGet_eq_keyEntries, hkey k, List.nil_append]
    unfold lookupFirst at hfirst
    rw [find?_eq_head_filter] at hfirst
    obtain ⟨q, hq1, hq2⟩ := Option.map_eq_some'.mp hfirst
    rw [hq1]
    simp [hq2]

/-- C1 witness: two inserts on 5-bucket tables, key 2. -/
theorem c1_witness :
    lpGet (⟨5, 2, [(0, 0), (1, 100), (2, 200), (0, 0), (0, 0)]⟩ : LPTable) 2 = 200 ∧
    chGet (chInsertMany (chEmpty 5) [(1, 100), (2, 200)]) 2 = 200 ∧
    chGet chScenario 20 = 2000 ∧ chScenario.hash_groups = 10 ∧
    lpScenario.map (fun s => (lpGet s 20, s.hash_groups)) = some (2000, 40) :=
  c1_resize_retrievable 5 [(1, 100), (2, 200)]
    ⟨5, 2, [(0, 0), (1, 100), (2, 200), (0, 0), (0, 0)]⟩ 2 200 200
    (by decide) (by decide) (by decide) (by decide) (by decide) (by decide)

/-- C6: in the probing table, inserting `(k, v1)` then `(k, v2)` from any
well-formed state leaves exactly one entry for `k`, holding the latest
value `v2`, `get k` returns `v2`, and the second insert does not change
`elements` (update-in-place). -/
theorem c6_probing_update (s s1 s2 : LPTable) (k v1 v2 : Int)
    (hwf : LPWF s) (hk : 0 < k)
    (h1 : lpInsert s k v1 = some s1) (h2 : lpInsert s1 k v2 = some s2) :
    entriesFor s2.table k = [(k, v2)] ∧ lpGet s2 k = v2 ∧
    s2.elements = s1.elements := by
  obtain ⟨hlen, hg, huniq, hinv, hsz⟩ := hwf
  have hkne : k ≠ 0 := by omega
  obtain ⟨huniq1, hmem1, hel1⟩ := lpInsert_mem hlen hg huniq hinv hkne h1
  obtain ⟨hsz1, hlen1, hg1, _, _⟩ := lpInsert_size hlen hg hsz h1
  obtain ⟨_, _, hinv1⟩ := lpInsert_lpInv hlen hg hinv h1
  obtain ⟨huniq2, hmem2, hel2⟩ := lpInsert_mem hlen1 hg1 huniq1 hinv1 hkne h2
  obtain ⟨hsz2, hlen2, hg2, _, _⟩ := lpInsert_size hlen1 hg1 hsz1 h2
  obtain ⟨_, _, hinv2⟩ := lpInsert_lpInv hlen1 hg1 hinv1 h2
  have hkv1 : (k, v1) ∈ s1.table := by
    rw [hmem1 k v1 hkne, if_pos rfl]
  have hkv2 : (k, v2) ∈ s2.table := by
    rw [hmem2 k v2 hkne, if_pos rfl]
  have hcount1 : ¬ keyCount s1.table k = 0 := by
    intro hc
    exact keyCount_eq_zero_iff.mp hc v1 hkv1
  have hval2 : ∀ v0 : Int, (k, v0) ∈ s2.table → v0 = v2 := by
    intro v0 hv0
    have := (hmem2 k v0 hkne).mp hv0
    rwa [if_pos rfl] at this
  have hcount2 : keyCount s2.table k = 1 := by
    have hle := huniq2 k hkne
    have hpos2 : 0 < keyCount s2.table k := by
      unfold keyCount
      apply List.countP_pos_iff.mpr
      exact ⟨(k, v2), hkv2, by simp⟩
    omega
  refine ⟨entriesFor_singleton hcount2 hval2, ?_, ?_⟩
  · exact lpGet_of_mem hlen2 hg2 hkne (huniq2 k hkne) hinv2 hkv2
  · rw [hel2, if_neg hcount1]
    ring

/-- C6 witness: inserting `(1, 10)` then `(1, 20)` into the fresh 5-slot
table. -/
theorem c6_witness :
    entriesFor (⟨5, 1, [(0, 0), (1, 20), (0, 0), (0, 0), (0, 0)]⟩ : LPTable).table 1 =
      [(1, 20)] ∧
    lpGet (⟨5, 1, [(0, 0), (1, 20), (0, 0), (0, 0), (0, 0)]⟩ : LPTable) 1 = 20 ∧
    (⟨5, 1, [(0, 0), (1, 20), (0, 0), (0, 0), (0, 0)]⟩ : LPTable).elements =
      (⟨5, 1, [(0, 0), (1, 10), (0, 0), (0, 0), (0, 0)]⟩ : LPTable).elements :=
  c6_probing_update (lpEmpty 5)
    ⟨5, 1, [(0, 0), (1, 10), (0, 0), (0, 0), (0, 0)]⟩
    ⟨5, 1, [(0, 0), (1, 20), (0, 0), (0, 0), (0, 0)]⟩ 1 10 20
    (LPWF_lpEmpty 5 (by decide)) (by decide) (by decide) (by decide)

/-- C7: in the chained table, from any well-formed state where key `k`
has no visible entry, inserting `(k, v1)` then `(k, v2)` increments
`elements` twice and leaves two chain entries for `k` in insertion
order; `get k` returns the first value `v1`; one `remove k` deletes only
the first entry, after which `get k` returns `v2`. -/
theorem c7_chained_duplicates (s : CHTable) (k v1 v2 : Int)
    (hwf : CHWF s) (hk : 0 ≤ k) (habs : keyEntries s k = []) :
    (chInsert (chInsert s k v1) k v2).elements = s.elements + 2 ∧
    keyEntries (chInsert (chInsert s k v1) k v2) k = [(k, v1), (k, v2)] ∧
    chGet (chInsert (chInsert s k v1) k v2) k = v1 ∧
    chGet (chRemove (chInsert (chInsert s k v1) k v2) k) k = v2 := by
  obtain ⟨hwf1, hel1, _, hkey1⟩ := @chInsert_spec s k v1 hwf
  obtain ⟨hwf2, hel2, _, hkey2⟩ := @chInsert_spec (chInsert s k v1) k v2 hwf1
  have hk1 : keyEntries (chInsert s k v1) k = [(k, v1)] := by
    rw [hkey1 k, habs, if_pos rfl]
    rfl
  have hk2 : keyEntries (chInsert (chInsert s k v1) k v2) k =
      [(k, v1), (k, v2)] := by
    rw [hkey2 k, hk1, if_pos rfl]
    rfl
  refine ⟨by rw [hel2, hel1]; ring, hk2, ?_, ?_⟩
  · rw [chGet_eq_keyEntries, hk2]
    rfl
  · obtain ⟨hrkey, _, _, _, _, _⟩ := chRemove_found
      (show keyEntries (chInsert (chInsert s k v1) k v2) k ≠ [] by rw [hk2]; simp)
    rw [chGet_eq_keyEntries, hrkey, hk2]
    rfl

/-- C7 witness: inserting `(1, 10)` then `(1, 20)` into the fresh
5-bucket chained table. -/
theorem c7_witness :
    (chInsert (chInsert (chEmpty 5) 1 10) 1 20).elements = (chEmpty 5).elements + 2 ∧
    keyEntries (chInsert (chInsert (chEmpty 5) 1 10) 1 20) 1 = [(1, 10), (1, 20)] ∧
    chGet (chInsert (chInsert (chEmpty 5) 1 10) 1 20) 1 = 10 ∧
    chGet (chRemove (chInsert (chInsert (chEmpty 5) 1 10) 1 20) 1) 1 = 20 :=
  c7_chained_duplicates (chEmpty 5) 1 10 20 (CHWF_chEmpty 5 (by decide))
    (by decide) (by decide)

/-- C8: after `remove k` completes, `get k` reports the not-found
sentinel `-1` — for the chained table when `k` had exactly one visible
entry, and for the probing table for any present nonzero key (the
operation also always terminates then); when a duplicate chained entry
remains, `get k` instead returns the remaining (second) entry's value. -/
theorem c8_remove_then_get (sc sc2 : CHTable) (kc v v1 v2 : Int)
    (dup : List (Int × Int)) (sp : LPTable) (kp : Int)
    (hone : keyEntries sc kc = [(kc, v)])
    (hdup : keyEntries sc2 kc = (kc, v1) :: (kc, v2) :: dup)
    (hplen : sp.table.length = sp.hash_groups) (hpg : 0 < sp.hash_groups)
    (hkp : kp ≠ 0)
    (hpres : ∃ m, m < sp.hash_groups ∧ (sp.table.getD m (0, 0)).1 = kp) :
    chGet (chRemove sc kc) kc = -1 ∧
    chGet (chRemove sc2 kc) kc = v2 ∧
    ∃ s2, lpRemove sp kp = some s2 ∧ lpGet s2 kp = -1 := by
  refine ⟨?_, ?_, ?_⟩
  · obtain ⟨hrkey, _, _, _, _, _⟩ := chRemove_found
      (show keyEntries sc kc ≠ [] by rw [hone]; simp)
    rw [chGet_eq_keyEntries, hrkey, hone]
    rfl
  · obtain ⟨hrkey, _, _, _, _, _⟩ := chRemove_found
      (show keyEntries sc2 kc ≠ [] by rw [hdup]; simp)
    rw [chGet_eq_keyEntries, hrkey, hdup]
    rfl
  · obtain ⟨s2, h1, h2, _⟩ := lpRemove_get hplen hpg hkp hpres
    exact ⟨s2, h1, h2⟩

/-- C8 witness: concrete removes on 5-bucket tables. -/
theorem c8_witness :
    chGet (chRemove (⟨5, 1, [[], [(1, 7)], [], [], []]⟩ : CHTable) 1) 1 = -1 ∧
    chGet (chRemove (⟨5, 2, [[], [(1, 7), (1, 8)], [], [], []]⟩ : CHTable) 1) 1 = 8 ∧
    ∃ s2, lpRemove (⟨5, 1, [(0, 0), (1, 9), (0, 0), (0, 0), (0, 0)]⟩ : LPTable) 1 =
        some s2 ∧ lpGet s2 1 = -1 :=
  c8_remove_then_get ⟨5, 1, [[], [(1, 7)], [], [], []]⟩
    ⟨5, 2, [[], [(1, 7), (1, 8)], [], [], []]⟩ 1 7 7 8 []
    ⟨5, 1, [(0, 0), (1, 9), (0, 0), (0, 0), (0, 0)]⟩ 1
    (by decide) (by decide) (by decide) (by decide) (by decide) ⟨1, by decide⟩

/-- C9 counterexample: `remove 0` on the fresh 5-slot probing table
matches the empty sentinel of slot 0, completes, and decrements
`elements` to `-1` although no entry was stored: `size` becomes negative
and no longer equals the number of entries (0). -/
theorem c9_counterexample :
    lpRemove (lpEmpty 5) 0 =
      some ⟨5, -1, [(0, 0), (0, 0), (0, 0), (0, 0), (0, 0)]⟩ ∧
    (⟨5, -1, [(0, 0), (0, 0), (0, 0), (0, 0), (0, 0)]⟩ : LPTable).elements < 0 ∧
    occupied (⟨5, -1, [(0, 0), (0, 0), (0, 0), (0, 0), (0, 0)]⟩ : LPTable).table = 0 := by
  refine ⟨by decide, by decide, by decide⟩

/-- C9 (amended): the size bookkeeping is correct for every chained
`insert` and `remove` (any key) and for every probing `insert`, and for
a probing `remove` of a nonzero key that completes; only a probing
`remove` that matches the empty sentinel (key 0, or an absent key — the
latter never completes) breaks it (see the counterexample). -/
theorem c9_size_accounting (sc : CHTable) (kc vc kr : Int)
    (spi spi2 spr spr2 : LPTable) (ki vi kq : Int)
    (hwfc : CHWF sc) (hsc : sc.elements = (numEntriesCH sc : Int))
    (hilen : spi.table.length = spi.hash_groups) (hig : 0 < spi.hash_groups)
    (hisz : spi.elements = (occupied spi.table : Int))
    (hins : lpInsert spi ki vi = some spi2)
    (hrlen : spr.table.length = spr.hash_groups) (hrg : 0 < spr.hash_groups)
    (hrsz : spr.elements = (occupied spr.table : Int)) (hkq : kq ≠ 0)
    (hrem : lpRemove spr kq = some spr2) :
    ((chInsert sc kc vc).elements = (numEntriesCH (chInsert sc kc vc) : Int) ∧
      0 ≤ (chInsert sc kc vc).elements) ∧
    ((chRemove sc kr).elements = (numEntriesCH (chRemove sc kr) : Int) ∧
      0 ≤ (chRemove sc kr).elements) ∧
    spi2.elements = (occupied spi2.table : Int) ∧
    spr2.elements = (occupied spr2.table : Int) := by
  refine ⟨?_, ?_, ?_, ?_⟩
  · obtain ⟨_, hel, hnum, _⟩ := @chInsert_spec sc kc vc hwfc
    constructor
    · rw [hel, hnum, hsc]
      push_cast
      ring
    · rw [hel, hsc]
      omega
  · by_cases hany : ((sc.table.getD (homeIdx kr sc.hash_groups) []).any
        (fun p => p.1 == kr)) = true
    · have hne : keyEntries sc kr ≠ [] := by
        obtain ⟨q, hq, hqk⟩ := List.any_eq_true.mp hany
        intro hc
        unfold keyEntries at hc
        rw [List.filter_eq_nil_iff] at hc
        exact absurd hqk (by simpa using hc q hq)
      obtain ⟨_, hel, _, hnum, _, _⟩ := chRemove_found hne
      constructor
      · rw [hel, hsc]
        omega
      · rw [hel, hsc]
        omega
    · have heq := chRemove_absent
        (show ((sc.table.getD (homeIdx kr sc.hash_groups) []).any
          (fun p => p.1 == kr)) = false by
            rw [← Bool.not_eq_true]
            exact hany)
      rw [heq]
      exact ⟨hsc, by rw [hsc]; omega⟩
  · exact (lpInsert_size hilen hig hisz hins).1
  · exact lpRemove_size hrlen hrg hkq hrsz hrem

/-- C9 witness: concrete operations on fresh and one-entry tables. -/
theorem c9_witness :
    ((chInsert (chEmpty 5) 1 10).elements =
        (numEntriesCH (chInsert (chEmpty 5) 1 10) : Int) ∧
      0 ≤ (chInsert (chEmpty 5) 1 10).elements) ∧
    ((chRemove (chEmpty 5) 3).elements =
        (numEntriesCH (chRemove (chEmpty 5) 3) : Int) ∧
      0 ≤ (chRemove (chEmpty 5) 3).elements) ∧
    (⟨5, 1, [(0, 0), (1, 10), (0, 0), (0, 0), (0, 0)]⟩ : LPTable).elements =
      (occupied (⟨5, 1, [(0, 0), (1, 10), (0, 0), (0, 0), (0, 0)]⟩ : LPTable).table : Int) ∧
    (⟨5, 0, [(0, 0), (0, 0), (0, 0), (0, 0), (0, 0)]⟩ : LPTable).elements =
      (occupied (⟨5, 0, [(0, 0), (0, 0), (0, 0), (0, 0), (0, 0)]⟩ : LPTable).table : Int) :=
  c9_size_accounting (chEmpty 5) 1 10 3 (lpEmpty 5)
    ⟨5, 1, [(0, 0), (1, 10), (0, 0), (0, 0), (0, 0)]⟩
    ⟨5, 1, [(0, 0), (1, 9), (0, 0), (0, 0), (0, 0)]⟩
    ⟨5, 0, [(0, 0), (0, 0), (0, 0), (0, 0), (0, 0)]⟩ 1 10 1
    (CHWF_chEmpty 5 (by decide)) (by decide) (by decide) (by decide) (by decide)
    (by decide) (by decide) (by decide) (by decide) (by decide) (by decide)



end HashTable
